import Mathlib

/-!
Verification of the neuron-morphology repository against its
natural-language specification.

The repository ships the Python viewer/launcher (`neuronviewer.py`), the
pytest suite, and packaging glue; the NeuronGraph engine itself is consumed
as a prebuilt binary.  Accordingly:

* the viewer/launcher functions (`load_neuron`, `draw_graph`,
  `scroll_callback`) are embedded directly from `neuronviewer.py`;
* the engine operations (`topologicalSort`, `getTrunks`,
  `assembleTrunks`, soma queries, resampling) are modelled from the
  specification text, since only their callers appear in the sources.

Nodes carry exact rational coordinates in place of machine floats;
key/value node mappings are embedded as lists of nodes in mapping
(insertion) order, with key uniqueness stated as a hypothesis where a
claim needs it.
-/

namespace NeuronMesher

/-- One morphology node: `id type x y z radius parentId` as in the SWC
format; `pid = -1` marks a root. -/
structure Node where
  id : Int
  x : ℚ
  y : ℚ
  z : ℚ
  radius : ℚ
  type : Int
  pid : Int
deriving DecidableEq, Repr

/-- The node mapping of a graph, in insertion/iteration order
(Python `dict` of `id → Node`). -/
abbrev NodeMap := List Node

/-- `numberOfNodes` of the engine API: the size of the node mapping. -/
def numberOfNodes (ns : NodeMap) : Nat := ns.length

/-- The keys of the mapping are pairwise distinct, as they are for a
Python `dict`. -/
def uniqueIds (ns : NodeMap) : Prop := (ns.map Node.id).Nodup

instance (ns : NodeMap) : Decidable (uniqueIds ns) := by
  unfold uniqueIds; infer_instance

/-! ## Viewer embedding (`neuronviewer.py`) -/

/-- The OpenGL calls issued by `draw_graph`: `glBegin(GL_LINES)`,
`glVertex3f`, `glEnd`. -/
inductive GLCmd where
  | beginLines : GLCmd
  | vertex (x y z : ℚ) : GLCmd
  | endLines : GLCmd
deriving DecidableEq, Repr

/-- `nodes.get(pid)` of the Python dict: the entry stored under key
`pid`, if any. -/
def lookupNode (ns : NodeMap) (i : Int) : Option Node :=
  ns.find? (fun p => p.id == i)

/-- Embedding of `draw_graph` from `neuronviewer.py`: iterate the node
mapping in order; a node with `pid == -1` is skipped; otherwise the
parent is looked up with `nodes.get(n.pid)` and, when present, the pair
`glVertex3f(n.x.., parent.x..)` is emitted.  The node mapping is carried
through the loop state so that the call's effect on the graph is part of
the embedding's result. -/
def draw_graph (ns : NodeMap) : List GLCmd × NodeMap :=
  let st := ns.foldl
    (fun (st : List GLCmd × NodeMap) (n : Node) =>
      if n.pid = -1 then st
      else
        match lookupNode st.2 n.pid with
        | some parent =>
            (st.1 ++ [GLCmd.vertex n.x n.y n.z,
                      GLCmd.vertex parent.x parent.y parent.z], st.2)
        | none => st)
    ([GLCmd.beginLines], ns)
  (st.1 ++ [GLCmd.endLines], st.2)

/-- A point in space. -/
abbrev Pt := ℚ × ℚ × ℚ

/-- A node's position. -/
def posOf (n : Node) : Pt := (n.x, n.y, n.z)

/-- The point of a `glVertex3f` call, if the command is one. -/
def vertexOf : GLCmd → Option Pt
  | GLCmd.vertex a b c => some (a, b, c)
  | _ => none

/-- Under `GL_LINES`, vertices are consumed two at a time, each pair one
segment. -/
def pairUp : List Pt → List (Pt × Pt)
  | a :: b :: rest => (a, b) :: pairUp rest
  | _ => []

/-- The line segments encoded in a GL command list: the emitted vertices,
consumed in consecutive pairs (`GL_LINES`). -/
def vertexPairs (cmds : List GLCmd) : List (Pt × Pt) :=
  pairUp (cmds.filterMap vertexOf)

/-- A node yields a segment iff it is not a root and its parent id is a
key of the mapping. -/
def qualifies (ns : NodeMap) (n : Node) : Bool :=
  n.pid != -1 && (ns.any (fun p => p.id == n.pid))

/-- The position of the mapping entry stored under `n.pid` (unspecified
placeholder when the key is absent; only used under `qualifies`). -/
def parentPos (ns : NodeMap) (n : Node) : Pt :=
  match lookupNode ns n.pid with
  | some p => posOf p
  | none => (0, 0, 0)

/-- The segments `draw_graph` is specified to draw: one per qualifying
node, in mapping order, from the node to its parent. -/
def segList (ns : NodeMap) : List (Pt × Pt) :=
  (ns.filter (qualifies ns)).map (fun n => (posOf n, parentPos ns n))

/-! ### `draw_graph` characterization -/

/-- The GL commands one node contributes. -/
def emitOf (ns : NodeMap) (n : Node) : List GLCmd :=
  if n.pid = -1 then []
  else
    match lookupNode ns n.pid with
    | some parent =>
        [GLCmd.vertex n.x n.y n.z, GLCmd.vertex parent.x parent.y parent.z]
    | none => []

lemma draw_graph_foldl (ns : NodeMap) :
    ∀ (l : List Node) (acc : List GLCmd),
      l.foldl
        (fun (st : List GLCmd × NodeMap) (n : Node) =>
          if n.pid = -1 then st
          else
            match lookupNode st.2 n.pid with
            | some parent =>
                (st.1 ++ [GLCmd.vertex n.x n.y n.z,
                          GLCmd.vertex parent.x parent.y parent.z], st.2)
            | none => st)
        (acc, ns)
      = (acc ++ l.flatMap (emitOf ns), ns) := by
  intro l
  induction l with
  | nil => intro acc; simp
  | cons n rest ih =>
      intro acc
      by_cases h : n.pid = -1
      · simp only [List.foldl_cons, if_pos h]
        rw [ih acc]
        simp [emitOf, h]
      · simp only [List.foldl_cons, if_neg h]
        cases hl : lookupNode ns n.pid with
        | some parent =>
            simp only [hl]
            rw [ih]
            simp [emitOf, h, hl]
        | none =>
            simp only [hl]
            rw [ih acc]
            simp [emitOf, h, hl]

lemma draw_graph_eq (ns : NodeMap) :
    draw_graph ns = ([GLCmd.beginLines] ++ ns.flatMap (emitOf ns)
                      ++ [GLCmd.endLines], ns) := by
  unfold draw_graph
  rw [draw_graph_foldl]

lemma qualifies_true_of_lookup (ns : NodeMap) {n parent : Node}
    (h : n.pid ≠ -1) (hl : lookupNode ns n.pid = some parent) :
    qualifies ns n = true := by
  simp only [qualifies, Bool.and_eq_true, bne_iff_ne, ne_eq]
  refine ⟨h, ?_⟩
  have := List.find?_some hl
  have hmem := List.mem_of_find?_eq_some hl
  simp only [List.any_eq_true]
  exact ⟨parent, hmem, this⟩

lemma qualifies_false_of_lookup_none (ns : NodeMap) {n : Node}
    (hl : lookupNode ns n.pid = none) :
    qualifies ns n = false := by
  simp only [qualifies, Bool.and_eq_false_iff]
  right
  simp only [List.any_eq_false]
  intro p hp
  simp only [beq_iff_eq]
  intro hid
  unfold lookupNode at hl
  rw [List.find?_eq_none] at hl
  exact absurd (by simpa using hid) (by simpa using hl p hp)

lemma pairUp_emit (ns : NodeMap) :
    ∀ (l : List Node),
      pairUp ((l.flatMap (emitOf ns)).filterMap vertexOf)
        = (l.filter (qualifies ns)).map (fun n => (posOf n, parentPos ns n))
  := by
  intro l
  induction l with
  | nil => simp [pairUp]
  | cons n rest ih =>
      by_cases h : n.pid = -1
      · have hq : qualifies ns n = false := by
          simp [qualifies, h]
        simp only [List.flatMap_cons, emitOf, if_pos h, List.nil_append]
        rw [List.filter_cons, hq]
        simpa using ih
      · cases hl : lookupNode ns n.pid with
        | some parent =>
            have hq := qualifies_true_of_lookup ns h hl
            simp only [List.flatMap_cons, emitOf, if_neg h, hl]
            rw [List.filter_cons, hq]
            simp only [List.filterMap_append, List.filterMap_cons, vertexOf,
              List.filterMap_nil, if_pos rfl]
            show pairUp (posOf n :: posOf parent :: _) = _
            rw [pairUp]
            show (posOf n, posOf parent)
                :: pairUp (List.filterMap vertexOf (rest.flatMap (emitOf ns))) = _
            rw [ih]
            simp [parentPos, hl]
        | none =>
            have hq := qualifies_false_of_lookup_none ns hl
            simp only [List.flatMap_cons, emitOf, if_neg h, hl, List.nil_append]
            rw [List.filter_cons, hq]
            simpa using ih

/-- The segments drawn by `draw_graph`, as a closed form: exactly one
segment per qualifying node, in mapping order. -/
lemma draw_graph_segments (ns : NodeMap) :
    vertexPairs (draw_graph ns).1 = segList ns := by
  rw [draw_graph_eq]
  unfold vertexPairs segList
  simp only [List.filterMap_append, List.filterMap_cons, vertexOf,
    List.filterMap_nil, List.append_nil, List.nil_append]
  exact pairUp_emit ns ns

/-! ## Launcher embedding (`load_neuron` in `neuronviewer.py`) -/

/-- Index of the last occurrence of `c` in the list, if any
(Python `str.rfind`, with `None` for `-1`). -/
def lastIdxOf (c : Char) : List Char → Option Nat
  | [] => none
  | a :: rest =>
      match lastIdxOf c rest with
      | some i => some (i + 1)
      | none => if a = c then some 0 else none

/-- The extension part of `os.path.splitext(path)` (POSIX rules): the
suffix from the last `.`, provided that dot lies inside the basename and
the basename characters before it are not all dots. -/
def splitextExt (p : List Char) : List Char :=
  match lastIdxOf '.' p with
  | none => []
  | some dot =>
      let fstart : Nat :=
        match lastIdxOf '/' p with
        | none => 0
        | some s => s + 1
      if ((p.drop fstart).take (dot - fstart)).any (fun ch => ch != '.') then
        p.drop dot
      else []

/-- `os.path.splitext(path)[1].lower()` as computed by `load_neuron`. -/
def lowerExt (p : List Char) : List Char := (splitextExt p).map Char.toLower

/-- The two ways `load_neuron` can populate the returned `NeuronGraph`:
via the SWC codec `readFromFile` or the UGX codec `readFromFileUGX`
(the codecs themselves live in the engine binary and are modelled at
this boundary by the tag of the codec that ran). -/
inductive LoadedGraph where
  | swcGraph : LoadedGraph
  | ugxGraph : LoadedGraph
deriving DecidableEq, Repr

/-- Embedding of `load_neuron`: lowercase the extension from
`os.path.splitext`, dispatch to `readFromFile` for `".swc"`, to
`readFromFileUGX` for `".ugx"`, and raise
`ValueError("Unsupported file format: " + ext)` otherwise. -/
def load_neuron (path : List Char) : Except (List Char) LoadedGraph :=
  if lowerExt path = ".swc".toList then Except.ok LoadedGraph.swcGraph
  else if lowerExt path = ".ugx".toList then Except.ok LoadedGraph.ugxGraph
  else Except.error ("Unsupported file format: ".toList ++ lowerExt path)

/-! ## Viewer state (`scroll_callback` in `neuronviewer.py`) -/

/-- Embedding of `scroll_callback`: the global `distance` is decreased
by `yoffset * 5.0` and then clamped from below at `10.0`. -/
def scroll_callback (distance yoffset : ℚ) : ℚ :=
  let d := distance - yoffset * 5
  max 10 d

/-- The initial value of the module-level `distance` variable. -/
def initialDistance : ℚ := 300

lemma scroll_foldl_ge (l : List ℚ) : ∀ d : ℚ, 10 ≤ d →
    10 ≤ l.foldl scroll_callback d := by
  induction l with
  | nil => intro d hd; simpa using hd
  | cons y rest ih =>
      intro d _
      exact ih (scroll_callback d y) (le_max_left _ _)

/-! ## Claim theorems for the viewer and launcher -/

/-- C4: the viewer never mutates the graph: after `draw_graph` runs, the
node mapping (all fields, in order) is exactly what it was before the
call. -/
theorem claim_C4_draw_graph_never_mutates (ns : NodeMap) :
    (draw_graph ns).2 = ns := by
  rw [draw_graph_eq]

/-- C5: `draw_graph` emits exactly one line segment per node whose
`parentId` is not `-1` and is a key of the mapping, in mapping order,
connecting the node's position to its parent's position; a root node
contributes no segment (it never qualifies). -/
theorem claim_C5_draw_graph_segments (ns : NodeMap) :
    vertexPairs (draw_graph ns).1 = segList ns
    ∧ ∀ n, n.pid = -1 → qualifies ns n = false := by
  refine ⟨draw_graph_segments ns, ?_⟩
  intro n hn
  simp [qualifies, hn]

/-- C9: `draw_graph` is total over dangling parent references: a node
whose `parentId` is not `-1` but is absent from the mapping is silently
skipped — it does not qualify for a segment, the drawn segments are
exactly those of the qualifying nodes, and the node is genuinely
dropped (fewer segments than nodes). -/
theorem claim_C9_draw_graph_dangling_skipped (ns : NodeMap) (n : Node)
    (hmem : n ∈ ns) (hpid : n.pid ≠ -1)
    (hdangling : lookupNode ns n.pid = none) :
    qualifies ns n = false
    ∧ vertexPairs (draw_graph ns).1 = segList ns
    ∧ (ns.filter (qualifies ns)).length < ns.length := by
  have hq := qualifies_false_of_lookup_none ns hdangling
  refine ⟨hq, draw_graph_segments ns, ?_⟩
  exact List.length_filter_lt_length_iff_exists.mpr ⟨n, hmem, by simp [hq]⟩

/-- Witness for C9 at a concrete two-node mapping whose second node has
a dangling parent reference. -/
theorem claim_C9_witness :
    qualifies [⟨1, 0, 0, 0, 1, 1, -1⟩, ⟨2, 1, 0, 0, 1, 1, 7⟩]
        ⟨2, 1, 0, 0, 1, 1, 7⟩ = false
    ∧ vertexPairs (draw_graph [⟨1, 0, 0, 0, 1, 1, -1⟩, ⟨2, 1, 0, 0, 1, 1, 7⟩]).1
        = segList [⟨1, 0, 0, 0, 1, 1, -1⟩, ⟨2, 1, 0, 0, 1, 1, 7⟩]
    ∧ (([⟨1, 0, 0, 0, 1, 1, -1⟩, ⟨2, 1, 0, 0, 1, 1, 7⟩] : NodeMap).filter
        (qualifies [⟨1, 0, 0, 0, 1, 1, -1⟩, ⟨2, 1, 0, 0, 1, 1, 7⟩])).length
        < ([⟨1, 0, 0, 0, 1, 1, -1⟩, ⟨2, 1, 0, 0, 1, 1, 7⟩] : NodeMap).length :=
  claim_C9_draw_graph_dangling_skipped _ _ (by decide) (by decide) (by decide)

/-- C8: every scroll event updates the camera distance to
`max(10.0, previous − 5.0 × yoffset)`, and over any sequence of scroll
events starting from the initial value `300.0` the distance never drops
below `10.0`. -/
theorem claim_C8_scroll_distance :
    (∀ d y : ℚ, scroll_callback d y = max 10 (d - 5 * y))
    ∧ ∀ events : List ℚ, 10 ≤ events.foldl scroll_callback initialDistance := by
  constructor
  · intro d y
    unfold scroll_callback
    ring_nf
  · intro events
    exact scroll_foldl_ge events initialDistance (by norm_num [initialDistance])

/-- C3 counterexample: the path `"a.SWC"` has an extension other than
`".swc"` and `".ugx"`, yet `load_neuron` does not raise the
unsupported-format error — it reads the file with the SWC codec. -/
theorem claim_C3_counterexample :
    load_neuron "a.SWC".toList = Except.ok LoadedGraph.swcGraph
    ∧ splitextExt "a.SWC".toList ≠ ".swc".toList
    ∧ splitextExt "a.SWC".toList ≠ ".ugx".toList :=
  ⟨rfl, by decide, by decide⟩

/-- C3 (amended): `load_neuron` selects the format solely from the
path's extension lowercased: a lowercased extension `".swc"` is read
with the SWC reader, `".ugx"` with the UGX reader, and any other
lowercased extension raises the unsupported-format `ValueError` and
returns no graph. -/
theorem claim_C3_load_neuron_dispatch (path : List Char) :
    (lowerExt path = ".swc".toList →
      load_neuron path = Except.ok LoadedGraph.swcGraph)
    ∧ (lowerExt path = ".ugx".toList →
      load_neuron path = Except.ok LoadedGraph.ugxGraph)
    ∧ (lowerExt path ≠ ".swc".toList →
      lowerExt path ≠ ".ugx".toList →
      ∃ msg, load_neuron path = Except.error msg) := by
  refine ⟨?_, ?_, ?_⟩
  · intro h
    unfold load_neuron
    rw [if_pos h]
  · intro h
    unfold load_neuron
    rw [if_neg (by rw [h]; decide), if_pos h]
  · intro h1 h2
    exact ⟨"Unsupported file format: ".toList ++ lowerExt path,
      by unfold load_neuron; rw [if_neg h1, if_neg h2]⟩

/-- Witness for the amended C3 at three concrete paths covering the
three branches. -/
theorem claim_C3_witness :
    load_neuron "a.swc".toList = Except.ok LoadedGraph.swcGraph
    ∧ load_neuron "b.UGX".toList = Except.ok LoadedGraph.ugxGraph
    ∧ ∃ msg, load_neuron "c.txt".toList = Except.error msg :=
  ⟨(claim_C3_load_neuron_dispatch "a.swc".toList).1 (by decide),
   (claim_C3_load_neuron_dispatch "b.UGX".toList).2.1 (by decide),
   (claim_C3_load_neuron_dispatch "c.txt".toList).2.2 (by decide) (by decide)⟩

/-- C10: extension matching in `load_neuron` is case-insensitive: any
path whose extension lowercases to `".swc"` is sent to the SWC codec
and any path whose extension lowercases to `".ugx"` is sent to the UGX
codec, rather than raising the unsupported-format error. -/
theorem claim_C10_extension_case_insensitive (p1 p2 : List Char)
    (h1 : (splitextExt p1).map Char.toLower = ".swc".toList)
    (h2 : (splitextExt p2).map Char.toLower = ".ugx".toList) :
    load_neuron p1 = Except.ok LoadedGraph.swcGraph
    ∧ load_neuron p2 = Except.ok LoadedGraph.ugxGraph := by
  have h1' : lowerExt p1 = ".swc".toList := h1
  have h2' : lowerExt p2 = ".ugx".toList := h2
  constructor
  · unfold load_neuron
    rw [if_pos h1']
  · unfold load_neuron
    rw [if_neg (by rw [h2']; decide), if_pos h2']

/-- Witness for C10 at the uppercase-extension paths `"n.SWC"` and
`"m.Ugx"`. -/
theorem claim_C10_witness :
    load_neuron "n.SWC".toList = Except.ok LoadedGraph.swcGraph
    ∧ load_neuron "m.Ugx".toList = Except.ok LoadedGraph.ugxGraph :=
  claim_C10_extension_case_insensitive "n.SWC".toList "m.Ugx".toList
    (by decide) (by decide)

/-! ## Engine model: parent resolution, depth, structural validity

The NeuronGraph engine is consumed by this repository as a prebuilt
binary; the definitions below are modelled from the specification. -/

/-- Modelled from the spec: resolving a node's `parentId` against the
mapping (the engine's flat arena keyed by id). -/
def parentOf (ns : NodeMap) (n : Node) : Option Node :=
  ns.find? (fun p => p.id == n.pid)

/-- Modelled from the spec: the depth of a node, by climbing the parent
chain until the root sentinel; fuel-bounded so that a dangling reference
or a cycle yields `none`. -/
def depthAux : Nat → NodeMap → Node → Option Nat
  | 0, _, _ => none
  | fuel + 1, ns, n =>
      if n.pid = -1 then some 0
      else (parentOf ns n).bind (fun p => (depthAux fuel ns p).map (· + 1))

/-- Depth with the canonical fuel: the size of the mapping. -/
def depthB (ns : NodeMap) (n : Node) : Option Nat :=
  depthAux ns.length ns n

/-- Ids pairwise distinct, as a computation. -/
def distinctIds : List Int → Bool
  | [] => true
  | i :: rest => (!rest.contains i) && distinctIds rest

/-- Modelled from the spec's graph invariants: ids unique and
non-negative, and every node's parent chain reaches a root within the
size of the graph — so every `parentId` resolves and no id participates
in a cycle of parent references. -/
def validGraph (ns : NodeMap) : Bool :=
  distinctIds (ns.map Node.id)
    && ns.all (fun n => decide (0 ≤ n.id))
    && ns.all (fun n => (depthB ns n).isSome)

lemma distinctIds_iff (l : List Int) : distinctIds l = true ↔ l.Nodup := by
  induction l with
  | nil => simp [distinctIds]
  | cons i rest ih =>
      simp [distinctIds, ih, List.nodup_cons]

lemma validGraph_nodup {ns : NodeMap} (h : validGraph ns = true) :
    (ns.map Node.id).Nodup := by
  unfold validGraph at h
  simp only [Bool.and_eq_true] at h
  exact (distinctIds_iff _).mp h.1.1

lemma validGraph_nonneg {ns : NodeMap} (h : validGraph ns = true) :
    ∀ n ∈ ns, 0 ≤ n.id := by
  unfold validGraph at h
  simp only [Bool.and_eq_true, List.all_eq_true] at h
  intro n hn
  simpa using h.1.2 n hn

lemma validGraph_depth {ns : NodeMap} (h : validGraph ns = true) :
    ∀ n ∈ ns, ∃ k, depthB ns n = some k := by
  unfold validGraph at h
  simp only [Bool.and_eq_true, List.all_eq_true] at h
  intro n hn
  have := h.2 n hn
  cases hd : depthB ns n with
  | none => rw [hd] at this; simp at this
  | some k => exact ⟨k, rfl⟩

/-- With unique ids, a lookup by the id of a member returns that
member. -/
lemma find?_eq_some_of_nodup {ns : NodeMap} (hnd : (ns.map Node.id).Nodup)
    {p : Node} (hp : p ∈ ns) {i : Int} (hid : p.id = i) :
    ns.find? (fun q => q.id == i) = some p := by
  induction ns with
  | nil => cases hp
  | cons a rest ih =>
      rcases List.mem_cons.mp hp with rfl | hmem
      · rw [List.find?_cons_of_pos]
        simp [hid]
      · have hnd' : (rest.map Node.id).Nodup := (List.nodup_cons.mp hnd).2
        have hane : a.id ∉ rest.map Node.id := (List.nodup_cons.mp hnd).1
        have : a.id ≠ i := by
          intro hcontra
          apply hane
          rw [hcontra, ← hid]
          exact List.mem_map_of_mem Node.id hmem
        rw [List.find?_cons_of_neg]
        · exact ih hnd' hmem
        · simp [this]

/-- The other direction: a successful lookup is a member with that id. -/
lemma find?_id_mem {ns : NodeMap} {i : Int} {p : Node}
    (h : ns.find? (fun q => q.id == i) = some p) : p ∈ ns ∧ p.id = i := by
  refine ⟨List.mem_of_find?_eq_some h, ?_⟩
  have := List.find?_some h
  simpa using this

lemma depthAux_lt {f : Nat} {ns : NodeMap} {n : Node} {k : Nat}
    (h : depthAux f ns n = some k) : k < f := by
  induction f generalizing n k with
  | zero => simp [depthAux] at h
  | succ f ih =>
      rw [depthAux] at h
      by_cases hp : n.pid = -1
      · rw [if_pos hp] at h
        simp only [Option.some_inj] at h
        omega
      · rw [if_neg hp] at h
        cases hpar : parentOf ns n with
        | none => simp [hpar] at h
        | some p =>
            simp only [hpar, Option.some_bind] at h
            cases hd : depthAux f ns p with
            | none => simp [hd] at h
            | some j =>
                simp only [hd, Option.map_some', Option.some_inj] at h
                have := ih hd
                omega

lemma depthAux_mono {f f' : Nat} {ns : NodeMap} {n : Node} {k : Nat}
    (h : depthAux f ns n = some k) (hf : k < f') :
    depthAux f' ns n = some k := by
  induction f generalizing n k f' with
  | zero => simp [depthAux] at h
  | succ f ih =>
      rw [depthAux] at h
      obtain ⟨f'', rfl⟩ : ∃ f'', f' = f'' + 1 := ⟨f' - 1, by omega⟩
      rw [depthAux]
      by_cases hp : n.pid = -1
      · rw [if_pos hp] at h ⊢
        exact h
      · rw [if_neg hp] at h ⊢
        cases hpar : parentOf ns n with
        | none => simp [hpar] at h
        | some p =>
            simp only [hpar, Option.some_bind] at h ⊢
            cases hd : depthAux f ns p with
            | none => simp [hd] at h
            | some j =>
                simp only [hd, Option.map_some', Option.some_inj] at h
                subst h
                rw [ih hd (by omega)]
                simp

lemma depthAux_unique {f f' : Nat} {ns : NodeMap} {n : Node} {k k' : Nat}
    (h : depthAux f ns n = some k) (h' : depthAux f' ns n = some k') :
    k = k' := by
  have h1 := depthAux_mono h (Nat.lt_succ_of_lt (Nat.lt_succ_of_le (Nat.le_max_left k k')))
  have h2 := depthAux_mono h' (Nat.lt_succ_of_lt (Nat.lt_succ_of_le (Nat.le_max_right k k')))
  rw [h1] at h2
  exact Option.some_inj.mp h2

lemma depth_parent_succ {ns : NodeMap} {c p : Node} {f j : Nat}
    (hpid : c.pid ≠ -1) (hpar : parentOf ns c = some p)
    (hdp : depthAux f ns p = some j) :
    depthAux (f + 1) ns c = some (j + 1) := by
  rw [depthAux, if_neg hpid, hpar]
  simp [hdp]

lemma depth_succ_parent {ns : NodeMap} {c : Node} {f k : Nat}
    (h : depthAux (f + 1) ns c = some (k + 1)) :
    c.pid ≠ -1 ∧ ∃ p, parentOf ns c = some p ∧ depthAux f ns p = some k := by
  rw [depthAux] at h
  by_cases hp : c.pid = -1
  · rw [if_pos hp] at h
    simp at h
  · rw [if_neg hp] at h
    refine ⟨hp, ?_⟩
    cases hpar : parentOf ns c with
    | none => simp [hpar] at h
    | some p =>
        simp only [hpar, Option.some_bind] at h
        cases hd : depthAux f ns p with
        | none => simp [hd] at h
        | some j =>
            simp only [hd, Option.map_some', Option.some_inj] at h
            have : j = k := by omega
            exact ⟨p, rfl, by rw [hd, this]⟩

lemma depth_zero_iff {ns : NodeMap} {c : Node} {f : Nat} (hf : 0 < f) :
    depthAux f ns c = some 0 ↔ c.pid = -1 := by
  obtain ⟨f', rfl⟩ : ∃ f', f = f' + 1 := ⟨f - 1, by omega⟩
  constructor
  · intro h
    rw [depthAux] at h
    by_cases hp : c.pid = -1
    · exact hp
    · rw [if_neg hp] at h
      cases hpar : parentOf ns c with
      | none => simp [hpar] at h
      | some p =>
          simp only [hpar, Option.some_bind] at h
          cases hd : depthAux f' ns p with
          | none => simp [hd] at h
          | some j => simp [hd] at h
  · intro h
    rw [depthAux, if_pos h]

/-! ## Soma queries (C6)

Modelled from the spec: the soma is "represented by a distinguished
node type" (tag 1 in SWC); `hasSomaSegment` tests for the presence of a
soma-typed node or chain at the root, `isSomaMissing` for its absence
throughout the graph. -/

/-- The distinguished SWC soma type tag. -/
def somaType : Int := 1

/-- Modelled from the spec: `hasSomaSegment(graph)` — some node of the
graph carries the soma type. -/
def hasSomaSegment (ns : NodeMap) : Bool :=
  ns.any (fun n => n.type == somaType)

/-- Modelled from the spec: `isSomaMissing(graph)` — no node of the
graph carries the soma type. -/
def isSomaMissing (ns : NodeMap) : Bool :=
  ns.all (fun n => n.type != somaType)

/-- Modelled from the spec: a well-formed root region at least has a
root node. -/
def hasRoot (ns : NodeMap) : Bool :=
  ns.any (fun n => n.pid == -1)

/-- C6: for every non-empty graph with a well-formed root region,
`hasSomaSegment` and `isSomaMissing` are complementary — exactly one of
the two returns true. -/
theorem claim_C6_soma_complementary (ns : NodeMap)
    (hne : ns ≠ []) (hroot : hasRoot ns = true) :
    (hasSomaSegment ns = true ∧ isSomaMissing ns = false)
    ∨ (hasSomaSegment ns = false ∧ isSomaMissing ns = true) := by
  by_cases h : hasSomaSegment ns = true
  · left
    refine ⟨h, ?_⟩
    unfold hasSomaSegment at h
    unfold isSomaMissing
    simp only [List.any_eq_true] at h
    rcases h with ⟨n, hn, ht⟩
    rw [List.all_eq_false]
    exact ⟨n, hn, by simpa using ht⟩
  · right
    have hfalse : hasSomaSegment ns = false := by
      cases hval : hasSomaSegment ns
      · rfl
      · exact absurd hval h
    refine ⟨hfalse, ?_⟩
    unfold hasSomaSegment at hfalse
    unfold isSomaMissing
    rw [List.all_eq_true]
    intro n hn
    rw [List.any_eq_false] at hfalse
    have := hfalse n hn
    simpa using this

/-- Witness for C6 at a concrete two-node graph with a soma-typed
root. -/
theorem claim_C6_witness :
    (hasSomaSegment [⟨1, 0, 0, 0, 1, 1, -1⟩, ⟨2, 1, 0, 0, 1, 3, 1⟩] = true
      ∧ isSomaMissing [⟨1, 0, 0, 0, 1, 1, -1⟩, ⟨2, 1, 0, 0, 1, 3, 1⟩] = false)
    ∨ (hasSomaSegment [⟨1, 0, 0, 0, 1, 1, -1⟩, ⟨2, 1, 0, 0, 1, 3, 1⟩] = false
      ∧ isSomaMissing [⟨1, 0, 0, 0, 1, 1, -1⟩, ⟨2, 1, 0, 0, 1, 3, 1⟩] = true) :=
  claim_C6_soma_complementary _ (by decide) (by decide)

/-! ## Generic list-counting helpers -/

lemma count_flatMap {α β : Type} [DecidableEq β] (g : α → List β)
    (l : List α) (a : β) :
    ((l.flatMap g).count a) = (l.map (fun x => (g x).count a)).sum := by
  induction l with
  | nil => simp
  | cons x rest ih =>
      simp [List.flatMap_cons, List.count_append, ih]

lemma count_filter_full {α : Type} [DecidableEq α] (p : α → Bool)
    (l : List α) (a : α) :
    (l.filter p).count a = if p a = true then l.count a else 0 := by
  induction l with
  | nil => simp
  | cons b rest ih =>
      rw [List.filter_cons]
      by_cases hb : p b = true
      · rw [if_pos hb]
        by_cases hab : a = b
        · rw [← hab] at hb
          rw [← hab]
          rw [List.count_cons_self, ih, if_pos hb, if_pos hb,
            List.count_cons_self]
        · rw [List.count_cons_of_ne hab, ih]
          by_cases hpa : p a = true
          · rw [if_pos hpa, if_pos hpa, List.count_cons_of_ne hab]
          · rw [if_neg hpa, if_neg hpa]
      · rw [if_neg hb, ih]
        by_cases hpa : p a = true
        · rw [if_pos hpa, if_pos hpa]
          have hab : a ≠ b := by
            intro hcontra
            rw [hcontra] at hpa
            exact hb hpa
          rw [List.count_cons_of_ne hab]
        · rw [if_neg hpa, if_neg hpa]

lemma flatMap_congr_mem {α β : Type} {f g : α → List β} :
    ∀ l : List α, (∀ x ∈ l, f x = g x) → l.flatMap f = l.flatMap g := by
  intro l
  induction l with
  | nil => intro _; rfl
  | cons x rest ih =>
      intro hfg
      rw [List.flatMap_cons, List.flatMap_cons,
        hfg x (List.mem_cons_self x rest),
        ih (fun y hy => hfg y (List.mem_cons_of_mem x hy))]

lemma range_map_sum_zero (c : ℕ) :
    ∀ m k : ℕ, m ≤ k → ((List.range m).map
      (fun j => if k = j then c else 0)).sum = 0 := by
  intro m
  induction m with
  | zero => intro k _; simp
  | succ m ih =>
      intro k hk
      rw [List.range_succ, List.map_append, List.sum_append]
      rw [ih k (by omega)]
      simp
      omega

lemma range_map_sum_single (c : ℕ) :
    ∀ m k : ℕ, k < m → ((List.range m).map
      (fun j => if k = j then c else 0)).sum = c := by
  intro m
  induction m with
  | zero => intro k hk; omega
  | succ m ih =>
      intro k hk
      rw [List.range_succ, List.map_append, List.sum_append]
      by_cases hkm : k < m
      · rw [ih k hkm]
        have : k ≠ m := by omega
        simp [this]
      · have : k = m := by omega
        subst this
        rw [range_map_sum_zero c k k (le_refl k)]
        simp

lemma flatMap_range_single {α : Type} (g : ℕ → List α) :
    ∀ m k : ℕ, k < m → (∀ j, j < m → j ≠ k → g j = []) →
      (List.range m).flatMap g = g k := by
  intro m
  induction m with
  | zero => intro k hk; omega
  | succ m ih =>
      intro k hk hz
      rw [List.range_succ, List.flatMap_append]
      by_cases hkm : k < m
      · rw [ih k hkm (fun j hj hne => hz j (by omega) hne)]
        have : m ≠ k := by omega
        simp [hz m (by omega) this]
      · have : k = m := by omega
        subst this
        have hnil : (List.range k).flatMap g = [] := by
          apply List.flatMap_eq_nil_iff.mpr
          intro j hj
          rw [List.mem_range] at hj
          exact hz j (by omega) (by omega)
        rw [hnil]
        simp

lemma filter_flatMap {α β : Type} (g : α → List β) (p : β → Bool)
    (l : List α) :
    (l.flatMap g).filter p = l.flatMap (fun x => (g x).filter p) := by
  induction l with
  | nil => simp
  | cons x rest ih =>
      simp [List.flatMap_cons, List.filter_append, ih]

/-! ## Topology Engine (C2)

Modelled from the spec: `topologicalSort` "reorders the node mapping in
place into a valid parent-before-child order via a deterministic
traversal from root(s) (stable with respect to original relative
sibling order where the traversal has a choice)".  The model performs a
level-order traversal: nodes are emitted by increasing depth, nodes of
equal depth staying in their original relative order. -/

/-- The nodes of depth `k`, in mapping order. -/
def depthLayer (ns : NodeMap) (k : Nat) : List Node :=
  ns.filter (fun n => depthB ns n == some k)

/-- Modelled from the spec: `topologicalSort(graph)` as a stable
level-order (breadth-first) traversal from the roots. -/
def topologicalSort (ns : NodeMap) : NodeMap :=
  (List.range ns.length).flatMap (depthLayer ns)

/-- Modelled from the spec: `isTopologicallySorted(graph)` is true iff,
iterating the node mapping in its current order, every node's parent
(when present) occurs at an earlier position. -/
def topoCheckAux : List Int → List Node → Bool
  | _, [] => true
  | seen, n :: rest =>
      (n.pid == -1 || seen.contains n.pid) && topoCheckAux (n.id :: seen) rest

/-- `isTopologicallySorted(graph)`. -/
def isTopologicallySorted (ns : NodeMap) : Bool := topoCheckAux [] ns

/-! ### `topologicalSort` permutes the mapping -/

lemma topologicalSort_count {ns : NodeMap} (h : validGraph ns = true)
    (a : Node) : (topologicalSort ns).count a = ns.count a := by
  unfold topologicalSort
  rw [count_flatMap]
  by_cases ha : a ∈ ns
  · obtain ⟨ka, hka⟩ := validGraph_depth h a ha
    have hlt : ka < ns.length := depthAux_lt hka
    have : ∀ j : ℕ, (depthLayer ns j).count a
        = if ka = j then ns.count a else 0 := by
      intro j
      unfold depthLayer
      rw [count_filter_full]
      by_cases hj : ka = j
      · subst hj
        rw [if_pos (by simp [hka]), if_pos rfl]
      · rw [if_neg ?_, if_neg hj]
        simp only [hka, beq_iff_eq, Option.some_inj]
        simpa using hj
    calc ((List.range ns.length).map (fun x => (depthLayer ns x).count a)).sum
        = ((List.range ns.length).map (fun j => if ka = j then ns.count a else 0)).sum := by
          apply congrArg
          exact List.map_congr_left (fun j _ => this j)
      _ = ns.count a := range_map_sum_single _ _ _ hlt
  · have hzero : ns.count a = 0 := List.count_eq_zero.mpr ha
    rw [hzero]
    have : ∀ j : ℕ, (depthLayer ns j).count a = 0 := by
      intro j
      apply List.count_eq_zero.mpr
      intro hmem
      exact ha (List.mem_of_mem_filter hmem)
    calc ((List.range ns.length).map (fun x => (depthLayer ns x).count a)).sum
        = ((List.range ns.length).map (fun _ => (0 : ℕ))).sum := by
          apply congrArg
          exact List.map_congr_left (fun j _ => this j)
      _ = 0 := by simp

lemma topologicalSort_perm {ns : NodeMap} (h : validGraph ns = true) :
    List.Perm (topologicalSort ns) ns :=
  List.perm_iff_count.mpr (topologicalSort_count h)

/-! ### Depth is invariant under the sort -/

lemma parentOf_congr_of_perm {ns ms : NodeMap} (hperm : List.Perm ms ns)
    (hnd : (ns.map Node.id).Nodup) (m : Node) :
    parentOf ms m = parentOf ns m := by
  have hndm : (ms.map Node.id).Nodup := ((hperm.map Node.id).nodup_iff).mpr hnd
  cases hfind : parentOf ns m with
  | some p =>
      obtain ⟨hpmem, hpid⟩ := find?_id_mem hfind
      exact find?_eq_some_of_nodup hndm (hperm.mem_iff.mpr hpmem) hpid
  | none =>
      unfold parentOf at hfind ⊢
      rw [List.find?_eq_none] at hfind ⊢
      intro q hq
      exact hfind q (hperm.mem_iff.mp hq)

lemma depthAux_congr {ns ms : NodeMap}
    (hpar : ∀ m, parentOf ms m = parentOf ns m) :
    ∀ (f : Nat) (n : Node), depthAux f ms n = depthAux f ns n := by
  intro f
  induction f with
  | zero => intro n; simp [depthAux]
  | succ f ih =>
      intro n
      rw [depthAux, depthAux, hpar n]
      by_cases hp : n.pid = -1
      · rw [if_pos hp, if_pos hp]
      · rw [if_neg hp, if_neg hp]
        cases hpp : parentOf ns n with
        | none => simp
        | some p => simp [ih p]

lemma depthB_topologicalSort {ns : NodeMap} (h : validGraph ns = true)
    (n : Node) : depthB (topologicalSort ns) n = depthB ns n := by
  unfold depthB
  rw [(topologicalSort_perm h).length_eq]
  exact depthAux_congr
    (parentOf_congr_of_perm (topologicalSort_perm h) (validGraph_nodup h)) _ n

/-! ### Idempotence -/

lemma depthLayer_of_sort {ns : NodeMap} (h : validGraph ns = true)
    {k : Nat} (hk : k < ns.length) :
    (topologicalSort ns).filter (fun n => depthB (topologicalSort ns) n == some k)
      = depthLayer ns k := by
  have hfc : (topologicalSort ns).filter
        (fun n => depthB (topologicalSort ns) n == some k)
      = (topologicalSort ns).filter (fun n => depthB ns n == some k) := by
    apply List.filter_congr
    intro n _
    rw [depthB_topologicalSort h n]
  rw [hfc]
  unfold topologicalSort
  rw [filter_flatMap]
  have hinner : ∀ j, j < ns.length → j ≠ k →
      (depthLayer ns j).filter (fun n => depthB ns n == some k) = [] := by
    intro j _ hjk
    apply List.filter_eq_nil_iff.mpr
    intro n hn
    have hj : depthB ns n = some j := by
      have := List.of_mem_filter hn
      simpa using this
    simp [hj]
    intro hcontra
    exact hjk hcontra
  have hself : (depthLayer ns k).filter (fun n => depthB ns n == some k)
      = depthLayer ns k := by
    apply List.filter_eq_self.mpr
    intro n hn
    have := List.of_mem_filter hn
    simpa using this
  rw [flatMap_range_single _ _ k hk
    (fun j hj hjk => hinner j hj hjk)]
  exact hself

lemma topologicalSort_idem {ns : NodeMap} (h : validGraph ns = true) :
    topologicalSort (topologicalSort ns) = topologicalSort ns := by
  have hlen : (topologicalSort ns).length = ns.length :=
    (topologicalSort_perm h).length_eq
  show (List.range (topologicalSort ns).length).flatMap
      (depthLayer (topologicalSort ns)) = topologicalSort ns
  rw [hlen]
  have : ∀ k, k < ns.length →
      depthLayer (topologicalSort ns) k = depthLayer ns k := by
    intro k hk
    exact depthLayer_of_sort h hk
  calc (List.range ns.length).flatMap (depthLayer (topologicalSort ns))
      = (List.range ns.length).flatMap (depthLayer ns) := by
        apply flatMap_congr_mem
        intro k hk
        exact this k (List.mem_range.mp hk)
    _ = topologicalSort ns := rfl

/-! ### Sortedness of the output -/

lemma topoCheckAux_append (B : List Node) :
    ∀ (A : List Node) (seen : List Int),
      topoCheckAux seen (A ++ B)
        = (topoCheckAux seen A
            && topoCheckAux (A.foldl (fun s n => n.id :: s) seen) B) := by
  intro A
  induction A with
  | nil => intro seen; simp [topoCheckAux]
  | cons n rest ih =>
      intro seen
      rw [List.cons_append, topoCheckAux, topoCheckAux, ih]
      simp [Bool.and_assoc]

lemma mem_seen_foldl (i : Int) :
    ∀ (A : List Node) (seen : List Int),
      i ∈ A.foldl (fun s n => n.id :: s) seen
        ↔ i ∈ A.map Node.id ∨ i ∈ seen := by
  intro A
  induction A with
  | nil => intro seen; simp
  | cons n rest ih =>
      intro seen
      rw [List.foldl_cons, ih, List.map_cons]
      constructor
      · rintro (hmap | hcons)
        · exact Or.inl (List.mem_cons_of_mem _ hmap)
        · rcases List.mem_cons.mp hcons with h1 | h2
          · exact Or.inl (by rw [h1]; exact List.mem_cons_self _ _)
          · exact Or.inr h2
      · rintro (hmap | hseen)
        · rcases List.mem_cons.mp hmap with h1 | h2
          · exact Or.inr (by rw [h1]; exact List.mem_cons_self _ _)
          · exact Or.inl h2
        · exact Or.inr (List.mem_cons_of_mem _ hseen)

lemma topoCheckAux_of_all :
    ∀ (l : List Node) (seen : List Int),
      (∀ n ∈ l, n.pid = -1 ∨ n.pid ∈ seen) →
      topoCheckAux seen l = true := by
  intro l
  induction l with
  | nil => intro seen _; rfl
  | cons n rest ih =>
      intro seen hall
      rw [topoCheckAux]
      have hn := hall n (List.mem_cons_self n rest)
      have h1 : (n.pid == -1 || seen.contains n.pid) = true := by
        rcases hn with hroot | hseen
        · simp [hroot]
        · simp only [Bool.or_eq_true, beq_iff_eq]
          right
          exact List.elem_eq_true_of_mem hseen
      rw [h1]
      rw [Bool.true_and]
      apply ih
      intro m hm
      rcases hall m (List.mem_cons_of_mem n hm) with hroot | hseen
      · exact Or.inl hroot
      · exact Or.inr (List.mem_cons_of_mem _ hseen)

lemma layers_check {ns : NodeMap} (h : validGraph ns = true) :
    ∀ (c m : ℕ) (seen : List Int),
      (∀ p ∈ ns, ∀ j, depthB ns p = some j → j < m → p.id ∈ seen) →
      topoCheckAux seen ((List.range' m c).flatMap (depthLayer ns)) = true := by
  intro c
  induction c with
  | zero => intro m seen _; rfl
  | succ c ih =>
      intro m seen hseen
      rw [List.range'_succ, List.flatMap_cons, topoCheckAux_append]
      have hlayer : topoCheckAux seen (depthLayer ns m) = true := by
        apply topoCheckAux_of_all
        intro n hn
        have hnmem : n ∈ ns := List.mem_of_mem_filter hn
        have hdn : depthB ns n = some m := by
          have := List.of_mem_filter hn
          simpa using this
        cases m with
        | zero =>
            left
            exact (depth_zero_iff (by
              have := depthAux_lt hdn
              omega)).mp hdn
        | succ j =>
            right
            have hlen : ∃ f, ns.length = f + 1 := by
              have := depthAux_lt hdn
              exact ⟨ns.length - 1, by omega⟩
            obtain ⟨f, hf⟩ := hlen
            have hdn' : depthAux (f + 1) ns n = some (j + 1) := by
              rw [← hf]; exact hdn
            obtain ⟨hpid, p, hpar, hdp⟩ := depth_succ_parent hdn'
            obtain ⟨hpmem, hpidval⟩ := find?_id_mem hpar
            have hjf := depthAux_lt hdp
            have hdbp : depthB ns p = some j := by
              unfold depthB
              rw [hf]
              exact depthAux_mono hdp (by omega)
            have := hseen p hpmem j hdbp (by omega)
            rw [hpidval] at this
            exact this
      rw [hlayer, Bool.true_and]
      apply ih (m + 1)
      intro p hp j hdj hjm
      rw [mem_seen_foldl]
      by_cases hjm' : j < m
      · right
        exact hseen p hp j hdj hjm'
      · left
        have hjeq : j = m := by omega
        subst hjeq
        apply List.mem_map_of_mem Node.id
        apply List.mem_filter.mpr
        exact ⟨hp, by simp [hdj]⟩

lemma isTopologicallySorted_topologicalSort {ns : NodeMap}
    (h : validGraph ns = true) :
    isTopologicallySorted (topologicalSort ns) = true := by
  unfold isTopologicallySorted topologicalSort
  rw [List.range_eq_range']
  apply layers_check h ns.length 0 []
  intro p _ j _ hj
  omega

/-- C2: `topologicalSort` is idempotent — a second call leaves the node
mapping in exactly the order the first call produced — and after a call
to `topologicalSort`, `isTopologicallySorted` returns true.  The
hypothesis is the engine's structural validity (unique ids, resolving
parents, no cycles), under which the sort succeeds rather than raising
`CycleError`. -/
theorem claim_C2_topologicalSort_idempotent (ns : NodeMap)
    (h : validGraph ns = true) :
    topologicalSort (topologicalSort ns) = topologicalSort ns
    ∧ isTopologicallySorted (topologicalSort ns) = true :=
  ⟨topologicalSort_idem h, isTopologicallySorted_topologicalSort h⟩

/-- Witness for C2 at a concrete three-node graph listed in
child-before-parent order. -/
theorem claim_C2_witness :
    topologicalSort (topologicalSort
        [⟨3, 2, 0, 0, 1, 3, 2⟩, ⟨2, 1, 0, 0, 1, 3, 1⟩, ⟨1, 0, 0, 0, 1, 1, -1⟩])
      = topologicalSort
        [⟨3, 2, 0, 0, 1, 3, 2⟩, ⟨2, 1, 0, 0, 1, 3, 1⟩, ⟨1, 0, 0, 0, 1, 1, -1⟩]
    ∧ isTopologicallySorted (topologicalSort
        [⟨3, 2, 0, 0, 1, 3, 2⟩, ⟨2, 1, 0, 0, 1, 3, 1⟩, ⟨1, 0, 0, 0, 1, 1, -1⟩])
      = true :=
  claim_C2_topologicalSort_idempotent _ (by decide)

/-! ## Resampling Engine (C7)

Modelled from the spec: each trunk's node positions (and radius) form a
polyline parametrized by cumulative arc length, resampled at fixed step
`delta`.  The metric between consecutive nodes (Euclidean in the
engine, whose square roots exact rationals cannot express) is a
parameter `len` of the model; the proved properties hold for every
non-negative metric. -/

/-- The engine's error taxonomy, from the spec. -/
inductive EngineError where
  | parseIssue : EngineError
  | unsupportedFormat : EngineError
  | danglingReference : EngineError
  | cycleIssue : EngineError
  | invalidArgument : EngineError
  | notFound : EngineError
deriving DecidableEq, Repr

/-- A trunk: an ordered sequence of nodes. -/
abbrev Trunk := List Node

/-- Linear interpolation of one coordinate. -/
def lerp (a b t : ℚ) : ℚ := a + t * (b - a)

/-- The node interpolated linearly at local parameter `t` between `p`
and `q` (position and radius; id, type, parent inherited from `p`). -/
def lerpNode (p q : Node) (t : ℚ) : Node :=
  ⟨p.id, lerp p.x q.x t, lerp p.y q.y t, lerp p.z q.z t,
    lerp p.radius q.radius t, p.type, p.pid⟩

/-- Total arc length of a trunk polyline under the metric `len`. -/
def totalLen (len : Node → Node → ℚ) : Trunk → ℚ
  | [] => 0
  | [_] => 0
  | p :: q :: rest => len p q + totalLen len (q :: rest)

/-- Evaluate the arc-length-parametrized piecewise-linear interpolant
at parameter `s`. -/
def polyEval (len : Node → Node → ℚ) : Trunk → ℚ → Node
  | [], _ => ⟨0, 0, 0, 0, 0, 0, -1⟩
  | [p], _ => p
  | p :: q :: rest, s =>
      if s ≤ len p q then lerpNode p q (s / len p q)
      else polyEval len (q :: rest) (s - len p q)

/-- One coordinate of the uniform Catmull–Rom cubic through `b` and `c`
with neighbours `a` and `d`, at local parameter `t ∈ [0,1]`. -/
def crVal (a b c d t : ℚ) : ℚ :=
  (2 * b + (c - a) * t + (2 * a - 5 * b + 4 * c - d) * t ^ 2
    + (3 * b - 3 * c + d - a) * t ^ 3) / 2

/-- The Catmull–Rom-interpolated node at local parameter `t` on the
segment from `b` to `c`. -/
def crNode (a b c d : Node) (t : ℚ) : Node :=
  ⟨b.id, crVal a.x b.x c.x d.x t, crVal a.y b.y c.y d.y t,
    crVal a.z b.z c.z d.z t, crVal a.radius b.radius c.radius d.radius t,
    b.type, b.pid⟩

/-- Evaluate the arc-length-parametrized Catmull–Rom spline at
parameter `s`, carrying the previous knot for the neighbour stencil
(endpoints duplicated). -/
def cubicEvalAux (len : Node → Node → ℚ) : Node → Trunk → ℚ → Node
  | prev, p :: q :: rest, s =>
      if s ≤ len p q then crNode prev p q (rest.headD q) (s / len p q)
      else cubicEvalAux len p (q :: rest) (s - len p q)
  | _, [p], _ => p
  | prev, [], _ => prev

/-- Evaluate the cubic interpolant of a trunk at parameter `s`. -/
def cubicEval (len : Node → Node → ℚ) (t : Trunk) (s : ℚ) : Node :=
  match t with
  | p :: rest => cubicEvalAux len p (p :: rest) s
  | [] => ⟨0, 0, 0, 0, 0, 0, -1⟩

/-- How many samples `0, δ, 2δ, …` fall strictly below the arc length
`L` (at least the sample at `0`). -/
def sampleCount (L δ : ℚ) : Nat := max 1 (Int.toNat ⌈L / δ⌉)

/-- Modelled from the spec: linear arc-length resampling of one trunk at
step `δ` — interpolated samples at `0, δ, 2δ, …` below the arc length,
then the exact last node. -/
def linearResampleTrunk (len : Node → Node → ℚ) (δ : ℚ) (t : Trunk) : Trunk :=
  match t with
  | [] => []
  | [p] => [p]
  | p :: q :: rest =>
      ((List.range (sampleCount (totalLen len (p :: q :: rest)) δ)).map
        (fun k : Nat => polyEval len (p :: q :: rest) ((k : ℚ) * δ)))
        ++ [(p :: q :: rest).getLast (by simp)]

/-- Modelled from the spec: cubic-spline arc-length resampling of one
trunk at step `δ`; trunks of fewer than 4 points fall back to linear
interpolation. -/
def cubicResampleTrunk (len : Node → Node → ℚ) (δ : ℚ) (t : Trunk) : Trunk :=
  if t.length < 4 then linearResampleTrunk len δ t
  else
    match t with
    | [] => []
    | [p] => [p]
    | p :: q :: rest =>
        ((List.range (sampleCount (totalLen len (p :: q :: rest)) δ)).map
          (fun k : Nat => cubicEval len (p :: q :: rest) ((k : ℚ) * δ)))
          ++ [(p :: q :: rest).getLast (by simp)]

/-- Modelled from the spec: `allLinearSplineResampledTrunks(trunks, delta)`;
`delta` must be positive, fails with `InvalidArgumentError` otherwise. -/
def allLinearSplineResampledTrunks (len : Node → Node → ℚ)
    (trunks : List Trunk) (δ : ℚ) : Except EngineError (List Trunk) :=
  if δ ≤ 0 then Except.error EngineError.invalidArgument
  else Except.ok (trunks.map (linearResampleTrunk len δ))

/-- Modelled from the spec: `allCubicSplineResampledTrunks(trunks, delta)`;
identical contract, cubic interpolation. -/
def allCubicSplineResampledTrunks (len : Node → Node → ℚ)
    (trunks : List Trunk) (δ : ℚ) : Except EngineError (List Trunk) :=
  if δ ≤ 0 then Except.error EngineError.invalidArgument
  else Except.ok (trunks.map (cubicResampleTrunk len δ))

/-! ### Endpoint preservation -/

lemma lerp_zero (a b : ℚ) : lerp a b 0 = a := by
  unfold lerp; ring

lemma lerpNode_zero (p q : Node) : lerpNode p q 0 = p := by
  unfold lerpNode
  rw [lerp_zero, lerp_zero, lerp_zero, lerp_zero]

lemma crVal_zero (a b c d : ℚ) : crVal a b c d 0 = b := by
  unfold crVal; ring

lemma crNode_zero (a b c d : Node) : crNode a b c d 0 = b := by
  unfold crNode
  rw [crVal_zero, crVal_zero, crVal_zero, crVal_zero]

lemma polyEval_zero (len : Node → Node → ℚ) (p q : Node) (rest : List Node)
    (h : 0 ≤ len p q) : polyEval len (p :: q :: rest) 0 = p := by
  rw [polyEval, if_pos h, zero_div, lerpNode_zero]

lemma cubicEval_zero (len : Node → Node → ℚ) (p q : Node) (rest : List Node)
    (h : 0 ≤ len p q) : cubicEval len (p :: q :: rest) 0 = p := by
  show cubicEvalAux len p (p :: q :: rest) 0 = p
  show (if (0 : ℚ) ≤ len p q then crNode p p q (rest.headD q) (0 / len p q)
        else cubicEvalAux len p (q :: rest) (0 - len p q)) = p
  rw [if_pos h, zero_div, crNode_zero]

lemma sampleCount_pos (L δ : ℚ) : 1 ≤ sampleCount L δ := by
  unfold sampleCount
  omega

lemma range_map_head (n : Nat) (hn : 1 ≤ n) {α : Type} (f : Nat → α)
    (tail : List α) :
    (((List.range n).map f) ++ tail).head? = some (f 0) := by
  obtain ⟨m, rfl⟩ : ∃ m, n = m + 1 := ⟨n - 1, by omega⟩
  rw [List.range_succ_eq_map, List.map_cons, List.cons_append]
  rfl

lemma linearResampleTrunk_head (len : Node → Node → ℚ)
    (hlen : ∀ a b, 0 ≤ len a b) (δ : ℚ) (p q : Node) (rest : List Node) :
    (linearResampleTrunk len δ (p :: q :: rest)).head? = some p := by
  rw [linearResampleTrunk]
  rw [range_map_head _ (sampleCount_pos _ _)]
  rw [Nat.cast_zero, zero_mul, polyEval_zero len p q rest (hlen p q)]

lemma linearResampleTrunk_last (len : Node → Node → ℚ) (δ : ℚ)
    (p q : Node) (rest : List Node) :
    (linearResampleTrunk len δ (p :: q :: rest)).getLast?
      = (p :: q :: rest).getLast? := by
  rw [linearResampleTrunk]
  rw [List.getLast?_concat]
  rw [List.getLast?_eq_getLast _ (by simp)]

lemma cubicResampleTrunk_head (len : Node → Node → ℚ)
    (hlen : ∀ a b, 0 ≤ len a b) (δ : ℚ) (p q : Node) (rest : List Node) :
    (cubicResampleTrunk len δ (p :: q :: rest)).head? = some p := by
  rw [cubicResampleTrunk]
  by_cases hlt : (p :: q :: rest).length < 4
  · rw [if_pos hlt]
    exact linearResampleTrunk_head len hlen δ p q rest
  · rw [if_neg hlt]
    rw [range_map_head _ (sampleCount_pos _ _)]
    rw [Nat.cast_zero, zero_mul, cubicEval_zero len p q rest (hlen p q)]

lemma cubicResampleTrunk_last (len : Node → Node → ℚ) (δ : ℚ)
    (p q : Node) (rest : List Node) :
    (cubicResampleTrunk len δ (p :: q :: rest)).getLast?
      = (p :: q :: rest).getLast? := by
  rw [cubicResampleTrunk]
  by_cases hlt : (p :: q :: rest).length < 4
  · rw [if_pos hlt]
    exact linearResampleTrunk_last len δ p q rest
  · rw [if_neg hlt]
    rw [List.getLast?_concat]
    rw [List.getLast?_eq_getLast _ (by simp)]

/-- C7 (amended): for every non-negative trunk metric, every trunk with
at least two nodes and every `delta > 0`, both resamplers succeed and
preserve the trunk's first and last nodes exactly, and a non-positive
`delta` fails with `InvalidArgumentError` for both. -/
theorem claim_C7_resampling_endpoints (len : Node → Node → ℚ)
    (hlen : ∀ a b, 0 ≤ len a b) (t : Trunk) (ht : 2 ≤ t.length)
    (δ : ℚ) (hδ : 0 < δ) :
    (allLinearSplineResampledTrunks len [t] δ
        = Except.ok [linearResampleTrunk len δ t]
      ∧ (linearResampleTrunk len δ t).head? = t.head?
      ∧ (linearResampleTrunk len δ t).getLast? = t.getLast?)
    ∧ (allCubicSplineResampledTrunks len [t] δ
        = Except.ok [cubicResampleTrunk len δ t]
      ∧ (cubicResampleTrunk len δ t).head? = t.head?
      ∧ (cubicResampleTrunk len δ t).getLast? = t.getLast?)
    ∧ (∀ δ' ≤ (0 : ℚ),
        allLinearSplineResampledTrunks len [t] δ'
          = Except.error EngineError.invalidArgument
        ∧ allCubicSplineResampledTrunks len [t] δ'
          = Except.error EngineError.invalidArgument) := by
  obtain ⟨p, q, rest, rfl⟩ : ∃ p q rest, t = p :: q :: rest := by
    match t, ht with
    | p :: q :: rest, _ => exact ⟨p, q, rest, rfl⟩
  refine ⟨⟨?_, ?_, ?_⟩, ⟨?_, ?_, ?_⟩, ?_⟩
  · unfold allLinearSplineResampledTrunks
    rw [if_neg (by linarith)]
    rfl
  · rw [linearResampleTrunk_head len hlen δ p q rest]
    rfl
  · exact linearResampleTrunk_last len δ p q rest
  · unfold allCubicSplineResampledTrunks
    rw [if_neg (by linarith)]
    rfl
  · rw [cubicResampleTrunk_head len hlen δ p q rest]
    rfl
  · exact cubicResampleTrunk_last len δ p q rest
  · intro δ' hδ'
    constructor
    · unfold allLinearSplineResampledTrunks
      rw [if_pos hδ']
    · unfold allCubicSplineResampledTrunks
      rw [if_pos hδ']

/-- The Manhattan metric: a concrete non-negative trunk metric. -/
def manhattan (a b : Node) : ℚ := |b.x - a.x| + |b.y - a.y| + |b.z - a.z|

lemma manhattan_nonneg (a b : Node) : 0 ≤ manhattan a b := by
  unfold manhattan
  have h1 := abs_nonneg (b.x - a.x)
  have h2 := abs_nonneg (b.y - a.y)
  have h3 := abs_nonneg (b.z - a.z)
  linarith

/-- A five-node single-chain trunk along the x-axis with arc length
`10`. -/
def cexTrunk : Trunk :=
  [⟨1, 0, 0, 0, 1, 3, -1⟩, ⟨2, 3, 0, 0, 1, 3, 1⟩, ⟨3, 5, 0, 0, 1, 3, 2⟩,
   ⟨4, 8, 0, 0, 1, 3, 3⟩, ⟨5, 10, 0, 0, 1, 3, 4⟩]

/-- Witness for the amended C7 at the Manhattan metric, a concrete
two-node trunk and `delta = 1`. -/
theorem claim_C7_witness :
    (allLinearSplineResampledTrunks manhattan
        [[⟨1, 0, 0, 0, 1, 3, -1⟩, ⟨2, 3, 0, 0, 1, 3, 1⟩]] 1
        = Except.ok [linearResampleTrunk manhattan 1
            [⟨1, 0, 0, 0, 1, 3, -1⟩, ⟨2, 3, 0, 0, 1, 3, 1⟩]]
      ∧ (linearResampleTrunk manhattan 1
            [⟨1, 0, 0, 0, 1, 3, -1⟩, ⟨2, 3, 0, 0, 1, 3, 1⟩]).head?
          = ([⟨1, 0, 0, 0, 1, 3, -1⟩, ⟨2, 3, 0, 0, 1, 3, 1⟩] : Trunk).head?
      ∧ (linearResampleTrunk manhattan 1
            [⟨1, 0, 0, 0, 1, 3, -1⟩, ⟨2, 3, 0, 0, 1, 3, 1⟩]).getLast?
          = ([⟨1, 0, 0, 0, 1, 3, -1⟩, ⟨2, 3, 0, 0, 1, 3, 1⟩] : Trunk).getLast?)
    ∧ (allCubicSplineResampledTrunks manhattan
        [[⟨1, 0, 0, 0, 1, 3, -1⟩, ⟨2, 3, 0, 0, 1, 3, 1⟩]] 1
        = Except.ok [cubicResampleTrunk manhattan 1
            [⟨1, 0, 0, 0, 1, 3, -1⟩, ⟨2, 3, 0, 0, 1, 3, 1⟩]]
      ∧ (cubicResampleTrunk manhattan 1
            [⟨1, 0, 0, 0, 1, 3, -1⟩, ⟨2, 3, 0, 0, 1, 3, 1⟩]).head?
          = ([⟨1, 0, 0, 0, 1, 3, -1⟩, ⟨2, 3, 0, 0, 1, 3, 1⟩] : Trunk).head?
      ∧ (cubicResampleTrunk manhattan 1
            [⟨1, 0, 0, 0, 1, 3, -1⟩, ⟨2, 3, 0, 0, 1, 3, 1⟩]).getLast?
          = ([⟨1, 0, 0, 0, 1, 3, -1⟩, ⟨2, 3, 0, 0, 1, 3, 1⟩] : Trunk).getLast?)
    ∧ (∀ δ' ≤ (0 : ℚ),
        allLinearSplineResampledTrunks manhattan
          [[⟨1, 0, 0, 0, 1, 3, -1⟩, ⟨2, 3, 0, 0, 1, 3, 1⟩]] δ'
          = Except.error EngineError.invalidArgument
        ∧ allCubicSplineResampledTrunks manhattan
          [[⟨1, 0, 0, 0, 1, 3, -1⟩, ⟨2, 3, 0, 0, 1, 3, 1⟩]] δ'
          = Except.error EngineError.invalidArgument) :=
  claim_C7_resampling_endpoints manhattan manhattan_nonneg
    [⟨1, 0, 0, 0, 1, 3, -1⟩, ⟨2, 3, 0, 0, 1, 3, 1⟩] (by decide) 1 (by norm_num)

lemma linearResampleTrunk_length (len : Node → Node → ℚ) (δ : ℚ)
    (p q : Node) (rest : List Node) :
    (linearResampleTrunk len δ (p :: q :: rest)).length
      = sampleCount (totalLen len (p :: q :: rest)) δ + 1 := by
  rw [linearResampleTrunk]
  simp

/-- C7 counterexample to the count clause: `cexTrunk` has arc length
`10`, not an exact multiple of `delta = 3`, yet linear resampling at
step `3` leaves the node count (hence the intermediate node count)
unchanged at `5`. -/
theorem claim_C7_counterexample :
    allLinearSplineResampledTrunks manhattan [cexTrunk] 3
      = Except.ok [linearResampleTrunk manhattan 3 cexTrunk]
    ∧ (linearResampleTrunk manhattan 3 cexTrunk).length = cexTrunk.length
    ∧ totalLen manhattan cexTrunk = 10
    ∧ ¬ ∃ k : ℕ, (k : ℚ) * 3 = totalLen manhattan cexTrunk := by
  have hL : totalLen manhattan cexTrunk = 10 := by
    norm_num [cexTrunk, totalLen, manhattan]
  have hceil : ⌈(10 : ℚ) / 3⌉ = 4 := by
    rw [Int.ceil_eq_iff]
    constructor <;> norm_num
  have hsc : sampleCount (totalLen manhattan cexTrunk) 3 = 4 := by
    rw [hL]
    unfold sampleCount
    rw [hceil]
    rfl
  refine ⟨?_, ?_, hL, ?_⟩
  · unfold allLinearSplineResampledTrunks
    rw [if_neg (by norm_num)]
    rfl
  · show (linearResampleTrunk manhattan 3
        (⟨1, 0, 0, 0, 1, 3, -1⟩ :: ⟨2, 3, 0, 0, 1, 3, 1⟩ :: [⟨3, 5, 0, 0, 1, 3, 2⟩,
          ⟨4, 8, 0, 0, 1, 3, 3⟩, ⟨5, 10, 0, 0, 1, 3, 4⟩])).length = cexTrunk.length
    rw [linearResampleTrunk_length]
    have : totalLen manhattan
        (⟨1, 0, 0, 0, 1, 3, -1⟩ :: ⟨2, 3, 0, 0, 1, 3, 1⟩ :: [⟨3, 5, 0, 0, 1, 3, 2⟩,
          ⟨4, 8, 0, 0, 1, 3, 3⟩, ⟨5, 10, 0, 0, 1, 3, 4⟩])
        = totalLen manhattan cexTrunk := rfl
    rw [this, hsc]
    rfl
  · rintro ⟨k, hk⟩
    rw [hL] at hk
    have h3 : ((3 * k : ℕ) : ℚ) = ((10 : ℕ) : ℚ) := by
      push_cast
      linarith
    have h4 : 3 * k = 10 := Nat.cast_injective h3
    omega

/-! ## Trunk Engine (C1)

Modelled from the spec: a trunk is a maximal root-to-leaf-direction
chain in which every interior node has exactly one child; a trunk ends
at a branch point (≥ 2 children), a leaf, or a root.  `getTrunks`
computes the decomposition by walking the unique-child chain from every
trunk head (a root, or a child of a branch point); `assembleTrunks`
concatenates the trunks back, re-linking each trunk's first node via the
`TrunkParentMap` when one is supplied and otherwise keeping the node's
retained `parentId`. -/

/-- The children of the node with id `i`, in mapping order. -/
def childrenOf (ns : NodeMap) (i : Int) : List Node :=
  ns.filter (fun n => n.pid == i)

/-- The number of children of the node with id `i`. -/
def childCount (ns : NodeMap) (i : Int) : Nat := (childrenOf ns i).length

/-- A trunk head: a root, or a node whose parent is a branch point
(so that a maximal unbranched chain starts here). -/
def isHead (ns : NodeMap) (n : Node) : Bool :=
  n.pid == -1 || childCount ns n.pid != 1

/-- Walk the unique-child chain from a node: continue while the current
node has exactly one child, stop at a leaf or a branch point. -/
def trunkFromAux : Nat → NodeMap → Node → List Node
  | 0, _, n => [n]
  | fuel + 1, ns, n =>
      match childrenOf ns n.id with
      | [c] => n :: trunkFromAux fuel ns c
      | _ => [n]

/-- Modelled from the spec: `getTrunks(graph, extended)` — the
maximal-unbranched-path decomposition, one trunk per head, in mapping
order of the heads.  The `extended` flag only toggles whether branch
attachment metadata is carried inline; the node sequences are the
same either way. -/
def getTrunks (ns : NodeMap) (extended : Bool) : List Trunk :=
  (ns.filter (isHead ns)).map (fun h => trunkFromAux ns.length ns h)

/-- Climb parent references to the nearest trunk head. -/
def headOfAux : Nat → NodeMap → Node → Option Node
  | 0, _, _ => none
  | fuel + 1, ns, n =>
      if isHead ns n then some n
      else (parentOf ns n).bind (fun p => headOfAux fuel ns p)

/-- The trunk head whose chain contains `n`. -/
def headOf (ns : NodeMap) (n : Node) : Option Node :=
  headOfAux ns.length ns n

/-- A trunk's identifying key: its first node's id. -/
def trunkKey (t : Trunk) : Int :=
  match t.head? with
  | some n => n.id
  | none => -1

/-- The `TrunkParentMap` entry of one trunk: for a trunk whose first
node is not a root, the trunk key, the key of the trunk holding the
attachment node, and the attachment node id (the first node's
`parentId`). -/
def pmEntryOf (trunks : List Trunk) : Trunk → Option (Int × Int × Int)
  | [] => none
  | f :: rest =>
      if f.pid == -1 then none
      else
        match trunks.find? (fun t2 => t2.any (fun n => n.id == f.pid)) with
        | some t2 => some (trunkKey (f :: rest), trunkKey t2, f.pid)
        | none => none

/-- Modelled from the spec: `getTrunkParentMap(nodes, trunks)` — the
mapping from each trunk's key to its parent trunk and attachment
node. -/
def getTrunkParentMap (ns : NodeMap) (trunks : List Trunk) :
    List (Int × Int × Int) :=
  trunks.filterMap (pmEntryOf trunks)

/-- Re-link a trunk's first node to its attachment node from the map
(first node unchanged when the map has no entry for the trunk). -/
def relinkTrunk (pm : List (Int × Int × Int)) (t : Trunk) : Trunk :=
  match t with
  | [] => []
  | f :: rest =>
      match pm.find? (fun e => e.1 == trunkKey (f :: rest)) with
      | some e => { f with pid := e.2.2 } :: rest
      | none => f :: rest

/-- Modelled from the spec: `assembleTrunks(trunks[, trunkParentMap])` —
concatenate the trunk node sequences into one mapping, re-linking each
trunk's first node through the supplied map, or keeping the retained
`parentId` when the map is omitted. -/
def assembleTrunks (trunks : List Trunk)
    (pm : Option (List (Int × Int × Int))) : NodeMap :=
  match pm with
  | none => trunks.join
  | some m => (trunks.map (relinkTrunk m)).join

/-! ### Basic chain lemmas -/

lemma trunkFromAux_succ (fuel : Nat) (ns : NodeMap) (n : Node) :
    trunkFromAux (fuel + 1) ns n
      = match childrenOf ns n.id with
        | [c] => n :: trunkFromAux fuel ns c
        | _ => [n] := rfl

lemma trunkFromAux_single {ns : NodeMap} {n c : Node} {fuel : Nat}
    (h : childrenOf ns n.id = [c]) :
    trunkFromAux (fuel + 1) ns n = n :: trunkFromAux fuel ns c := by
  rw [trunkFromAux_succ, h]

lemma trunkFromAux_nil {ns : NodeMap} {n : Node} {fuel : Nat}
    (h : childrenOf ns n.id = []) :
    trunkFromAux (fuel + 1) ns n = [n] := by
  rw [trunkFromAux_succ, h]

lemma trunkFromAux_many {ns : NodeMap} {n c d : Node} {t : List Node}
    {fuel : Nat} (h : childrenOf ns n.id = c :: d :: t) :
    trunkFromAux (fuel + 1) ns n = [n] := by
  rw [trunkFromAux_succ, h]

lemma trunkFromAux_self_mem (fuel : Nat) (ns : NodeMap) (n : Node) :
    n ∈ trunkFromAux fuel ns n := by
  cases fuel with
  | zero => exact List.mem_singleton_self n
  | succ fuel =>
      cases hc : childrenOf ns n.id with
      | nil => rw [trunkFromAux_nil hc]; exact List.mem_singleton_self n
      | cons c rest =>
          cases rest with
          | nil => rw [trunkFromAux_single hc]; exact List.mem_cons_self n _
          | cons d t =>
              rw [trunkFromAux_many hc]; exact List.mem_singleton_self n

lemma trunkFromAux_head (fuel : Nat) (ns : NodeMap) (n : Node) :
    ∃ tail, trunkFromAux fuel ns n = n :: tail := by
  cases fuel with
  | zero => exact ⟨[], rfl⟩
  | succ fuel =>
      cases hc : childrenOf ns n.id with
      | nil => exact ⟨[], trunkFromAux_nil hc⟩
      | cons c rest =>
          cases rest with
          | nil => exact ⟨trunkFromAux fuel ns c, trunkFromAux_single hc⟩
          | cons d t => exact ⟨[], trunkFromAux_many hc⟩

lemma mem_childrenOf {ns : NodeMap} {i : Int} {c : Node} :
    c ∈ childrenOf ns i ↔ c ∈ ns ∧ c.pid = i := by
  unfold childrenOf
  rw [List.mem_filter]
  simp

lemma trunkFromAux_subset :
    ∀ (fuel : Nat) {ns : NodeMap} {n : Node}, n ∈ ns →
      ∀ m ∈ trunkFromAux fuel ns n, m ∈ ns := by
  intro fuel
  induction fuel with
  | zero =>
      intro ns n hn m hm
      rw [List.mem_singleton.mp hm]
      exact hn
  | succ fuel ih =>
      intro ns n hn m hm
      cases hc : childrenOf ns n.id with
      | nil =>
          rw [trunkFromAux_nil hc] at hm
          rw [List.mem_singleton.mp hm]
          exact hn
      | cons c rest =>
          cases rest with
          | nil =>
              rw [trunkFromAux_single hc] at hm
              rcases List.mem_cons.mp hm with rfl | hm'
              · exact hn
              · have hcns : c ∈ ns :=
                  (mem_childrenOf.mp (hc ▸ List.mem_singleton_self c)).1
                exact ih hcns m hm'
          | cons d t =>
              rw [trunkFromAux_many hc] at hm
              rw [List.mem_singleton.mp hm]
              exact hn

lemma id_injective {ns : NodeMap} (hnd : (ns.map Node.id).Nodup) :
    ∀ {a b : Node}, a ∈ ns → b ∈ ns → a.id = b.id → a = b := by
  induction ns with
  | nil => intro a b ha; cases ha
  | cons x rest ih =>
      intro a b ha hb hab
      have hx : x.id ∉ rest.map Node.id := (List.nodup_cons.mp hnd).1
      have hnd' : (rest.map Node.id).Nodup := (List.nodup_cons.mp hnd).2
      rcases List.mem_cons.mp ha with rfl | ha'
      · rcases List.mem_cons.mp hb with rfl | hb'
        · rfl
        · exact absurd (hab ▸ List.mem_map_of_mem Node.id hb') hx
      · rcases List.mem_cons.mp hb with rfl | hb'
        · exact absurd (hab ▸ List.mem_map_of_mem Node.id ha') hx
        · exact ih hnd' ha' hb' hab

lemma eq_singleton_of_length_one {α : Type} {l : List α} {a : α}
    (hl : l.length = 1) (ha : a ∈ l) : l = [a] := by
  match l, hl with
  | [x], _ =>
      rw [List.mem_singleton.mp ha]

/-! ### Head-climbing lemmas -/

lemma headOfAux_mono {ns : NodeMap} :
    ∀ {f : Nat} {n h : Node} {f' : Nat}, headOfAux f ns n = some h → f ≤ f' →
      headOfAux f' ns n = some h := by
  intro f
  induction f with
  | zero => intro n h f' hcontra; simp [headOfAux] at hcontra
  | succ f ih =>
      intro n h f' hh hf
      obtain ⟨f'', rfl⟩ : ∃ f'', f' = f'' + 1 := ⟨f' - 1, by omega⟩
      rw [headOfAux] at hh ⊢
      by_cases hhead : isHead ns n = true
      · rw [if_pos hhead] at hh ⊢
        exact hh
      · rw [if_neg hhead] at hh ⊢
        cases hpar : parentOf ns n with
        | none => simp [hpar] at hh
        | some p =>
            simp only [hpar, Option.some_bind] at hh ⊢
            exact ih hh (by omega)

lemma headOfAux_isHead {ns : NodeMap} :
    ∀ {f : Nat} {n h : Node}, headOfAux f ns n = some h → isHead ns h = true := by
  intro f
  induction f with
  | zero => intro n h hcontra; simp [headOfAux] at hcontra
  | succ f ih =>
      intro n h hh
      rw [headOfAux] at hh
      by_cases hhead : isHead ns n = true
      · rw [if_pos hhead] at hh
        rw [← Option.some_inj.mp hh]
        exact hhead
      · rw [if_neg hhead] at hh
        cases hpar : parentOf ns n with
        | none => simp [hpar] at hh
        | some p =>
            simp only [hpar, Option.some_bind] at hh
            exact ih hh

lemma headOfAux_mem {ns : NodeMap} :
    ∀ {f : Nat} {n h : Node}, headOfAux f ns n = some h → n ∈ ns → h ∈ ns := by
  intro f
  induction f with
  | zero => intro n h hcontra; simp [headOfAux] at hcontra
  | succ f ih =>
      intro n h hh hn
      rw [headOfAux] at hh
      by_cases hhead : isHead ns n = true
      · rw [if_pos hhead] at hh
        rw [← Option.some_inj.mp hh]
        exact hn
      · rw [if_neg hhead] at hh
        cases hpar : parentOf ns n with
        | none => simp [hpar] at hh
        | some p =>
            simp only [hpar, Option.some_bind] at hh
            exact ih hh (find?_id_mem hpar).1

lemma child_depth {ns : NodeMap} (hval : validGraph ns = true)
    {n c : Node} (hn : n ∈ ns) (hc : c ∈ ns) (hpid : c.pid = n.id)
    {kn : Nat} (hdn : depthB ns n = some kn) :
    depthB ns c = some (kn + 1) := by
  have hcne : c.pid ≠ -1 := by
    rw [hpid]
    have := validGraph_nonneg hval n hn
    omega
  have hpar : parentOf ns c = some n :=
    find?_eq_some_of_nodup (validGraph_nodup hval) hn hpid.symm
  obtain ⟨kc, hdc⟩ := validGraph_depth hval c hc
  have hlen : kc < ns.length := depthAux_lt hdc
  obtain ⟨f, hf⟩ : ∃ f, ns.length = f + 1 := ⟨ns.length - 1, by omega⟩
  cases kc with
  | zero =>
      exact absurd ((depth_zero_iff (by omega)).mp hdc) hcne
  | succ j =>
      have hdc' : depthAux (f + 1) ns c = some (j + 1) := by
        rw [← hf]; exact hdc
      obtain ⟨_, p, hp, hdp⟩ := depth_succ_parent hdc'
      rw [hpar] at hp
      have hpn : p = n := (Option.some_inj.mp hp).symm
      subst hpn
      have hjkn : j = kn := depthAux_unique hdp hdn
      subst hjkn
      rw [hdc]

lemma headOf_exists {ns : NodeMap} (hval : validGraph ns = true) :
    ∀ (k : Nat) {n : Node}, n ∈ ns → depthB ns n = some k →
      ∃ h, headOfAux (k + 1) ns n = some h := by
  intro k
  induction k using Nat.strong_induction_on with
  | _ k ih =>
      intro n hn hdn
      by_cases hhead : isHead ns n = true
      · exact ⟨n, by rw [headOfAux, if_pos hhead]⟩
      · have hprops : n.pid ≠ -1 ∧ childCount ns n.pid = 1 := by
          unfold isHead at hhead
          simp only [Bool.or_eq_true, beq_iff_eq, bne_iff_ne, ne_eq,
            not_or, not_not] at hhead
          exact hhead
        cases k with
        | zero =>
            have hlen : (0 : Nat) < ns.length := depthAux_lt hdn
            exact absurd ((depth_zero_iff hlen).mp hdn) hprops.1
        | succ j =>
            have hlen : j + 1 < ns.length := depthAux_lt hdn
            obtain ⟨f, hf⟩ : ∃ f, ns.length = f + 1 := ⟨ns.length - 1, by omega⟩
            have hdn' : depthAux (f + 1) ns n = some (j + 1) := by
              rw [← hf]; exact hdn
            obtain ⟨_, p, hpar, hdp⟩ := depth_succ_parent hdn'
            have hpmem : p ∈ ns := (find?_id_mem hpar).1
            have hdbp : depthB ns p = some j := by
              unfold depthB
              rw [hf]
              exact depthAux_mono hdp (by omega)
            obtain ⟨h, hh⟩ := ih j (by omega) hpmem hdbp
            refine ⟨h, ?_⟩
            rw [headOfAux, if_neg hhead, hpar]
            simpa using hh

lemma headOf_some {ns : NodeMap} (hval : validGraph ns = true)
    {n : Node} (hn : n ∈ ns) :
    ∃ h, headOf ns n = some h ∧ h ∈ ns ∧ isHead ns h = true := by
  obtain ⟨k, hdn⟩ := validGraph_depth hval n hn
  obtain ⟨h, hh⟩ := headOf_exists hval k hn hdn
  have hlen : k < ns.length := depthAux_lt hdn
  have hfull : headOf ns n = some h := headOfAux_mono hh (by omega)
  exact ⟨h, hfull, headOfAux_mem hfull hn, headOfAux_isHead hfull⟩

lemma headOf_head {ns : NodeMap} {h : Node} (hh : isHead ns h = true)
    (hmem : h ∈ ns) : headOf ns h = some h := by
  have hlen : 0 < ns.length := List.length_pos_of_mem hmem
  obtain ⟨f, hf⟩ : ∃ f, ns.length = f + 1 := ⟨ns.length - 1, by omega⟩
  unfold headOf
  rw [hf, headOfAux, if_pos hh]

/-! ### Every member of a chain has the chain's head as its head -/

lemma trunkFromAux_headOf {ns : NodeMap} (hval : validGraph ns = true) :
    ∀ (fuel : Nat) {n h : Node}, n ∈ ns → headOf ns n = some h →
      ∀ m ∈ trunkFromAux fuel ns n, headOf ns m = some h := by
  intro fuel
  induction fuel with
  | zero =>
      intro n h hn hhead m hm
      rw [List.mem_singleton.mp hm]
      exact hhead
  | succ fuel ih =>
      intro n h hn hhead m hm
      cases hc : childrenOf ns n.id with
      | nil =>
          rw [trunkFromAux_nil hc] at hm
          rw [List.mem_singleton.mp hm]
          exact hhead
      | cons c rest =>
          cases rest with
          | cons d t =>
              rw [trunkFromAux_many hc] at hm
              rw [List.mem_singleton.mp hm]
              exact hhead
          | nil =>
              rw [trunkFromAux_single hc] at hm
              rcases List.mem_cons.mp hm with rfl | hm'
              · exact hhead
              · have hcprop := mem_childrenOf.mp (hc ▸ List.mem_singleton_self c)
                have hcns : c ∈ ns := hcprop.1
                have hcpid : c.pid = n.id := hcprop.2
                have hchead : headOf ns c = some h := by
                  have hidnn : n.id ≠ -1 := by
                    have := validGraph_nonneg hval n hn
                    omega
                  have hcount : childCount ns c.pid = 1 := by
                    rw [hcpid]
                    unfold childCount
                    rw [hc]
                    rfl
                  have hcount' : childCount ns n.id = 1 := by
                    rw [← hcpid]; exact hcount
                  have hchd : isHead ns c = false := by
                    unfold isHead
                    rw [hcpid]
                    simp [hidnn, hcount']
                  obtain ⟨kn, hdn⟩ := validGraph_depth hval n hn
                  have hdc : depthB ns c = some (kn + 1) :=
                    child_depth hval hn hcns hcpid hdn
                  have hknlt : kn + 1 < ns.length := depthAux_lt hdc
                  obtain ⟨h', hh'⟩ := headOf_exists hval kn hn hdn
                  have hh'full : headOf ns n = some h' :=
                    headOfAux_mono hh' (by omega)
                  have hh'h : h = h' := by
                    rw [hhead] at hh'full
                    exact Option.some_inj.mp hh'full
                  subst hh'h
                  obtain ⟨f, hf⟩ : ∃ f, ns.length = f + 1 :=
                    ⟨ns.length - 1, by omega⟩
                  have hpar : parentOf ns c = some n :=
                    find?_eq_some_of_nodup (validGraph_nodup hval) hn hcpid.symm
                  unfold headOf
                  rw [hf, headOfAux, if_neg (by rw [hchd]; exact Bool.false_ne_true),
                    hpar]
                  simp only [Option.some_bind]
                  exact headOfAux_mono hh' (by omega)
                exact ih hcns hchead m hm'

/-! ### Reachability down a chain -/

/-- `TReach ns n m`: the unique-child chain walk starting at `n` passes
through `m`. -/
inductive TReach (ns : NodeMap) : Node → Node → Prop where
  | refl (n : Node) : TReach ns n n
  | step {n c m : Node} :
      childrenOf ns n.id = [c] → TReach ns c m → TReach ns n m

lemma TReach_extend {ns : NodeMap} {h p a : Node}
    (hr : TReach ns h p) (hc : childrenOf ns p.id = [a]) : TReach ns h a := by
  induction hr with
  | refl n => exact TReach.step hc (TReach.refl a)
  | step hc' _ ih => exact TReach.step hc' (ih hc)

lemma TReach_of_headOfAux {ns : NodeMap} (hval : validGraph ns = true) :
    ∀ {f : Nat} {a h : Node}, headOfAux f ns a = some h → a ∈ ns →
      TReach ns h a := by
  intro f
  induction f with
  | zero => intro a h hcontra; simp [headOfAux] at hcontra
  | succ f ih =>
      intro a h hh ha
      rw [headOfAux] at hh
      by_cases hhead : isHead ns a = true
      · rw [if_pos hhead] at hh
        rw [← Option.some_inj.mp hh]
        exact TReach.refl a
      · rw [if_neg hhead] at hh
        cases hpar : parentOf ns a with
        | none => simp [hpar] at hh
        | some p =>
            simp only [hpar, Option.some_bind] at hh
            have hpmem : p ∈ ns := (find?_id_mem hpar).1
            have hreach : TReach ns h p := ih hh hpmem
            have hprops : a.pid ≠ -1 ∧ childCount ns a.pid = 1 := by
              unfold isHead at hhead
              simp only [Bool.or_eq_true, beq_iff_eq, bne_iff_ne, ne_eq,
                not_or, not_not] at hhead
              exact hhead
            have hpid : p.id = a.pid := (find?_id_mem hpar).2
            have hsingle : childrenOf ns p.id = [a] := by
              rw [hpid]
              apply eq_singleton_of_length_one hprops.2
              exact mem_childrenOf.mpr ⟨ha, rfl⟩
            exact TReach_extend hreach hsingle

lemma TReach_depth_le {ns : NodeMap} (hval : validGraph ns = true)
    {n a : Node} (hr : TReach ns n a) :
    n ∈ ns → ∀ {kn ka : Nat}, depthB ns n = some kn →
      depthB ns a = some ka → kn ≤ ka := by
  induction hr with
  | refl n =>
      intro _ kn ka h1 h2
      rw [h1] at h2
      exact le_of_eq (Option.some_inj.mp h2)
  | step hc hr' ih =>
      intro hn kn ka hdn hda
      rename_i n c m
      have hcprop := mem_childrenOf.mp (hc ▸ List.mem_singleton_self c)
      have hdc : depthB ns c = some (kn + 1) :=
        child_depth hval hn hcprop.1 hcprop.2 hdn
      have := ih hcprop.1 hdc hda
      omega

lemma TReach_mem_trunk {ns : NodeMap} (hval : validGraph ns = true)
    {h a : Node} (hr : TReach ns h a) :
    h ∈ ns → ∀ {kh ka fuel : Nat}, depthB ns h = some kh →
      depthB ns a = some ka → ka - kh < fuel →
      a ∈ trunkFromAux fuel ns h := by
  induction hr with
  | refl n =>
      intro _ kh ka fuel _ _ _
      exact trunkFromAux_self_mem fuel ns n
  | step hc hr' ih =>
      intro hn kh ka fuel hdh hda hfuel
      rename_i n c m
      have hcprop := mem_childrenOf.mp (hc ▸ List.mem_singleton_self c)
      have hdc : depthB ns c = some (kh + 1) :=
        child_depth hval hn hcprop.1 hcprop.2 hdh
      have hka : kh + 1 ≤ ka := TReach_depth_le hval hr' hcprop.1 hdc hda
      obtain ⟨fl, rfl⟩ : ∃ fl, fuel = fl + 1 := ⟨fuel - 1, by omega⟩
      rw [trunkFromAux_single hc]
      exact List.mem_cons_of_mem n (ih hcprop.1 hdc hda (by omega))

/-! ### Chains are duplicate-free -/

lemma trunkFromAux_depth_ge {ns : NodeMap} (hval : validGraph ns = true) :
    ∀ (fuel : Nat) {n : Node}, n ∈ ns → ∀ {kn : Nat}, depthB ns n = some kn →
      ∀ m ∈ trunkFromAux fuel ns n, ∃ km, depthB ns m = some km ∧ kn ≤ km := by
  intro fuel
  induction fuel with
  | zero =>
      intro n hn kn hdn m hm
      rw [List.mem_singleton.mp hm]
      exact ⟨kn, hdn, le_refl kn⟩
  | succ fuel ih =>
      intro n hn kn hdn m hm
      cases hc : childrenOf ns n.id with
      | nil =>
          rw [trunkFromAux_nil hc] at hm
          rw [List.mem_singleton.mp hm]
          exact ⟨kn, hdn, le_refl kn⟩
      | cons c rest =>
          cases rest with
          | cons d t =>
              rw [trunkFromAux_many hc] at hm
              rw [List.mem_singleton.mp hm]
              exact ⟨kn, hdn, le_refl kn⟩
          | nil =>
              rw [trunkFromAux_single hc] at hm
              rcases List.mem_cons.mp hm with rfl | hm'
              · exact ⟨kn, hdn, le_refl kn⟩
              · have hcprop := mem_childrenOf.mp (hc ▸ List.mem_singleton_self c)
                have hdc : depthB ns c = some (kn + 1) :=
                  child_depth hval hn hcprop.1 hcprop.2 hdn
                obtain ⟨km, hdm, hle⟩ := ih hcprop.1 hdc m hm'
                exact ⟨km, hdm, by omega⟩

lemma trunkFromAux_nodup {ns : NodeMap} (hval : validGraph ns = true) :
    ∀ (fuel : Nat) {n : Node}, n ∈ ns → (trunkFromAux fuel ns n).Nodup := by
  intro fuel
  induction fuel with
  | zero => intro n _; exact List.nodup_singleton n
  | succ fuel ih =>
      intro n hn
      cases hc : childrenOf ns n.id with
      | nil => rw [trunkFromAux_nil hc]; exact List.nodup_singleton n
      | cons c rest =>
          cases rest with
          | cons d t =>
              rw [trunkFromAux_many hc]
              exact List.nodup_singleton n
          | nil =>
              rw [trunkFromAux_single hc]
              have hcprop := mem_childrenOf.mp (hc ▸ List.mem_singleton_self c)
              refine List.nodup_cons.mpr ⟨?_, ih hcprop.1⟩
              intro hmem
              obtain ⟨kn, hdn⟩ := validGraph_depth hval n hn
              have hdc : depthB ns c = some (kn + 1) :=
                child_depth hval hn hcprop.1 hcprop.2 hdn
              obtain ⟨km, hdm, hle⟩ :=
                trunkFromAux_depth_ge hval fuel hcprop.1 hdc n hmem
              have : km = kn := depthAux_unique hdm hdn
              omega

/-! ### The decomposition partitions the mapping -/

lemma count_join_map {α β : Type} [DecidableEq β] (f : α → List β)
    (l : List α) (b : β) :
    ((l.map f).join).count b = (l.map (fun x => (f x).count b)).sum := by
  induction l with
  | nil => simp
  | cons x rest ih =>
      simp [List.count_append, ih]

lemma map_sum_zero {α : Type} (f : α → ℕ) :
    ∀ l : List α, (∀ y ∈ l, f y = 0) → (l.map f).sum = 0 := by
  intro l
  induction l with
  | nil => intro _; rfl
  | cons x rest ih =>
      intro hz
      rw [List.map_cons, List.sum_cons, hz x (List.mem_cons_self x rest),
        ih (fun y hy => hz y (List.mem_cons_of_mem x hy))]

lemma map_sum_indicator {α : Type} [DecidableEq α] (f : α → ℕ) :
    ∀ (l : List α) (x : α), l.Nodup → x ∈ l →
      (∀ y ∈ l, f y = if y = x then 1 else 0) → (l.map f).sum = 1 := by
  intro l
  induction l with
  | nil => intro x _ hx; cases hx
  | cons a rest ih =>
      intro x hnd hx hf
      rw [List.map_cons, List.sum_cons]
      by_cases hax : a = x
      · rw [hf a (List.mem_cons_self a rest), if_pos hax]
        have hxrest : x ∉ rest := by
          rw [← hax]
          exact (List.nodup_cons.mp hnd).1
        rw [map_sum_zero f rest ?_]
        intro y hy
        rw [hf y (List.mem_cons_of_mem a hy), if_neg ?_]
        intro hcontra
        exact hxrest (hcontra ▸ hy)
      · rw [hf a (List.mem_cons_self a rest), if_neg hax]
        have hxrest : x ∈ rest := by
          rcases List.mem_cons.mp hx with h1 | h2
          · exact absurd h1.symm hax
          · exact h2
        rw [ih x (List.nodup_cons.mp hnd).2 hxrest
          (fun y hy => hf y (List.mem_cons_of_mem a hy))]

lemma getTrunks_count {ns : NodeMap} (hval : validGraph ns = true)
    (ext : Bool) (b : Node) :
    ((getTrunks ns ext).join).count b = ns.count b := by
  unfold getTrunks
  rw [count_join_map]
  by_cases hb : b ∈ ns
  · obtain ⟨hb0, hhb, hbm, hbh⟩ := headOf_some hval hb
    have hnodup_ns : ns.Nodup := List.Nodup.of_map Node.id (validGraph_nodup hval)
    have hheads_nodup : (ns.filter (isHead ns)).Nodup := hnodup_ns.filter _
    have hb0heads : hb0 ∈ ns.filter (isHead ns) := List.mem_filter.mpr ⟨hbm, hbh⟩
    rw [List.count_eq_one_of_mem hnodup_ns hb]
    apply map_sum_indicator _ _ hb0 hheads_nodup hb0heads
    intro y hy
    have hymem : y ∈ ns := (List.mem_filter.mp hy).1
    have hyhead : isHead ns y = true := (List.mem_filter.mp hy).2
    by_cases hyx : y = hb0
    · rw [if_pos hyx]
      subst hyx
      have hreach : TReach ns y b := TReach_of_headOfAux hval hhb hb
      obtain ⟨kh, hdh⟩ := validGraph_depth hval y hymem
      obtain ⟨ka, hda⟩ := validGraph_depth hval b hb
      have hkalt : ka < ns.length := depthAux_lt hda
      have hmem : b ∈ trunkFromAux ns.length ns y :=
        TReach_mem_trunk hval hreach hymem hdh hda (by omega)
      exact List.count_eq_one_of_mem (trunkFromAux_nodup hval _ hymem) hmem
    · rw [if_neg hyx]
      apply List.count_eq_zero.mpr
      intro hmem
      have hhy : headOf ns b = some y :=
        trunkFromAux_headOf hval _ hymem (headOf_head hyhead hymem) b hmem
      rw [hhb] at hhy
      exact hyx (Option.some_inj.mp hhy).symm
  · rw [List.count_eq_zero.mpr hb]
    apply map_sum_zero
    intro y hy
    apply List.count_eq_zero.mpr
    intro hmem
    exact hb (trunkFromAux_subset _ (List.mem_filter.mp hy).1 b hmem)

lemma getTrunks_perm {ns : NodeMap} (hval : validGraph ns = true)
    (ext : Bool) : List.Perm ((getTrunks ns ext).join) ns :=
  List.perm_iff_count.mpr (fun b => getTrunks_count hval ext b)

/-! ### Re-linking an unmodified decomposition is the identity -/

lemma node_update_pid_self (f : Node) : ({ f with pid := f.pid } : Node) = f :=
  rfl

lemma trunkKey_cons (f : Node) (rest : Trunk) : trunkKey (f :: rest) = f.id :=
  rfl

lemma relinkTrunk_eq_self {pm : List (Int × Int × Int)} {f : Node}
    {rest : Trunk} (hpm : ∀ e ∈ pm, e.1 = f.id → e.2.2 = f.pid) :
    relinkTrunk pm (f :: rest) = f :: rest := by
  cases hfind : pm.find? (fun e => e.1 == trunkKey (f :: rest)) with
  | none =>
      rw [relinkTrunk, hfind]
  | some e =>
      have hmem := List.mem_of_find?_eq_some hfind
      have hkey : e.1 = f.id := by
        have := List.find?_some hfind
        simp only [beq_iff_eq] at this
        rw [this, trunkKey_cons]
      have hpid := hpm e hmem hkey
      rw [relinkTrunk, hfind]
      show ({ f with pid := e.2.2 } :: rest) = f :: rest
      rw [hpid, node_update_pid_self]

lemma pmEntryOf_analysis {trunks : List Trunk} {f : Node} {tail : Trunk}
    {e : Int × Int × Int} (h : pmEntryOf trunks (f :: tail) = some e) :
    e.1 = f.id ∧ e.2.2 = f.pid := by
  rw [pmEntryOf] at h
  split at h
  · simp at h
  · split at h
    · have he := Option.some_inj.mp h
      rw [← he]
      exact ⟨trunkKey_cons f tail, rfl⟩
    · simp at h

lemma pm_entry {ns : NodeMap} (hval : validGraph ns = true) (ext : Bool) :
    ∀ e ∈ getTrunkParentMap ns (getTrunks ns ext),
      ∃ h', h' ∈ ns ∧ e.1 = h'.id ∧ e.2.2 = h'.pid := by
  intro e he
  obtain ⟨t', ht'mem, hpay⟩ := List.mem_filterMap.mp he
  obtain ⟨h', hh'heads, ht'⟩ := List.mem_map.mp ht'mem
  subst ht'
  obtain ⟨tail, htail⟩ := trunkFromAux_head ns.length ns h'
  rw [htail] at hpay
  obtain ⟨he1, he2⟩ := pmEntryOf_analysis hpay
  exact ⟨h', (List.mem_filter.mp hh'heads).1, he1, he2⟩

lemma relink_map_id {ns : NodeMap} (hval : validGraph ns = true)
    (ext1 ext2 : Bool) :
    ∀ t ∈ getTrunks ns ext1,
      relinkTrunk (getTrunkParentMap ns (getTrunks ns ext2)) t = t := by
  intro t ht
  obtain ⟨h, hhheads, rfl⟩ := List.mem_map.mp ht
  have hhmem : h ∈ ns := (List.mem_filter.mp hhheads).1
  obtain ⟨tail, htail⟩ := trunkFromAux_head ns.length ns h
  rw [htail]
  apply relinkTrunk_eq_self
  intro e he hekey
  obtain ⟨h', hm', he1, he2⟩ := pm_entry hval ext2 e he
  have hh'h : h' = h :=
    id_injective (validGraph_nodup hval) hm' hhmem (by rw [← he1]; exact hekey)
  rw [he2, hh'h]

/-- C1: for every non-empty, structurally valid graph, assembling the
trunks of an unmodified decomposition — with or without the trunk
parent map — yields a node mapping whose node count equals
`numberOfNodes` of the graph and which is structurally identical to it
(a permutation of the same node records, hence the same `id → Node`
mapping). -/
theorem claim_C1_assembleTrunks_roundtrip (ns : NodeMap)
    (hval : validGraph ns = true) (hne : ns ≠ []) :
    (numberOfNodes (assembleTrunks (getTrunks ns false) none) = numberOfNodes ns
      ∧ List.Perm (assembleTrunks (getTrunks ns false) none) ns)
    ∧ (numberOfNodes (assembleTrunks (getTrunks ns true)
          (some (getTrunkParentMap ns (getTrunks ns false)))) = numberOfNodes ns
      ∧ List.Perm (assembleTrunks (getTrunks ns true)
          (some (getTrunkParentMap ns (getTrunks ns false)))) ns) := by
  have hperm0 : List.Perm ((getTrunks ns false).join) ns := getTrunks_perm hval false
  have hmapid : (getTrunks ns true).map
      (relinkTrunk (getTrunkParentMap ns (getTrunks ns false)))
      = getTrunks ns true := by
    have h1 : (getTrunks ns true).map
        (relinkTrunk (getTrunkParentMap ns (getTrunks ns false)))
        = (getTrunks ns true).map id :=
      List.map_congr_left (fun t ht => relink_map_id hval true false t ht)
    rw [h1, List.map_id]
  have hassembled : assembleTrunks (getTrunks ns true)
      (some (getTrunkParentMap ns (getTrunks ns false)))
      = (getTrunks ns true).join := by
    show (List.map (relinkTrunk (getTrunkParentMap ns (getTrunks ns false)))
        (getTrunks ns true)).join = (getTrunks ns true).join
    rw [hmapid]
  have hperm1 : List.Perm (assembleTrunks (getTrunks ns true)
      (some (getTrunkParentMap ns (getTrunks ns false)))) ns := by
    rw [hassembled]
    exact getTrunks_perm hval true
  exact ⟨⟨hperm0.length_eq, hperm0⟩, ⟨hperm1.length_eq, hperm1⟩⟩

/-- A concrete valid five-node Y-shaped graph: a chain `1 → 2 → 3`
branching at node `3` into leaves `4` and `5`. -/
def c1wit : NodeMap :=
  [⟨1, 0, 0, 0, 1, 1, -1⟩, ⟨2, 1, 0, 0, 1, 3, 1⟩, ⟨3, 2, 0, 0, 1, 3, 2⟩,
   ⟨4, 3, 0, 0, 1, 3, 3⟩, ⟨5, 3, 1, 0, 1, 3, 3⟩]

/-- Witness for C1 at the concrete graph `c1wit`. -/
theorem claim_C1_witness :
    (numberOfNodes (assembleTrunks (getTrunks c1wit false) none)
        = numberOfNodes c1wit
      ∧ List.Perm (assembleTrunks (getTrunks c1wit false) none) c1wit)
    ∧ (numberOfNodes (assembleTrunks (getTrunks c1wit true)
          (some (getTrunkParentMap c1wit (getTrunks c1wit false))))
        = numberOfNodes c1wit
      ∧ List.Perm (assembleTrunks (getTrunks c1wit true)
          (some (getTrunkParentMap c1wit (getTrunks c1wit false)))) c1wit) :=
  claim_C1_assembleTrunks_roundtrip c1wit (by decide) (by decide)

end NeuronMesher
